import Mathlib

/-!
# filtered_string_view: a shallow embedding

The C++ class `fsv::filtered_string_view` (src/filtered_string_view.h and
src/filtered_string_view.cpp) is a non-owning view: a `const char *data_`, a
`std::size_t length_` and a stored predicate `std::function<bool(const char &)>`.

Conventions of the embedding

* A `char` is its integer value (`Int`), so the comparison of two `char`s is the
  comparison of their values; the terminator of a character array is the value `0`.
* A character array in memory is a `Buffer`: the address of its first element and the
  list of its elements. Every array a view is built over (the result of
  `std::string::data()`, or a C string) is followed by a terminating zero, so the
  memory a `Buffer` stands for is `bytes ++ [0]` (`Buffer.storage`). Reading outside
  of it is undefined behaviour.
* A nullable `const char *` to the first element of an array is an `Option Buffer`;
  a non-null pointer into an array is a `char_ptr` (array and offset).
* A `const char &` handed to a predicate is a `char_ref`: the address and the value
  of the referenced `char`. A predicate may use both (the predicate that `substr`
  builds compares addresses).
* `int`, `unsigned` and `std::size_t` values are mathematical integers: lengths and
  indices are taken to fit their C++ types. The arithmetic that `substr` does on its
  `int` arguments is checked: an `int` is 32 bits wide, and a result outside of
  `INT_MIN .. INT_MAX` is signed overflow, which is undefined behaviour.
* Code that can run into undefined behaviour returns an `Exec`: `ret` with the
  result, `undefined`, or `out_of_fuel` for a loop cut off by its fuel bound.
-/

namespace fsv

/-! ## Execution outcomes -/

/-- Outcome of running a piece of code that may have undefined behaviour. -/
inductive Exec (α : Type) where
  | ret (a : α)
  | undefined
  | out_of_fuel
deriving DecidableEq

/-- Sequencing of two computations. -/
def Exec.bind {α β : Type} (x : Exec α) (f : α → Exec β) : Exec β :=
  match x with
  | .ret a => f a
  | .undefined => .undefined
  | .out_of_fuel => .out_of_fuel

/-- Post-processing of the result of a computation. -/
def Exec.map {α β : Type} (f : α → β) (x : Exec α) : Exec β :=
  x.bind (fun a => .ret (f a))

/-! ## Memory -/

/-- The C++ type `char`, as its integer value. -/
abbrev char := Int

/-- A `const char &`: address and value of the referenced character. -/
structure char_ref where
  addr : Nat
  val : char
deriving DecidableEq

/-- The type `fsv::filter` (`std::function<bool(const char &)>`). -/
abbrev filter := char_ref → Bool

/-- A character array: address of the first element, and the elements that precede
the terminating zero that every such array carries. -/
structure Buffer where
  addr : Nat
  bytes : List char
deriving DecidableEq

/-- The memory occupied by the array: its elements and the terminating zero. -/
def Buffer.storage (b : Buffer) : List char := b.bytes ++ [0]

/-- The lvalue `*(data_ + i)` for an `i` inside the array. -/
def Buffer.ref (b : Buffer) (i : Nat) : char_ref := ⟨b.addr + i, b.storage.getD i 0⟩

/-- The library function `strlen`: the number of characters before the first zero. -/
def strlen (b : Buffer) : Nat := (b.bytes.takeWhile (fun c => c != 0)).length

/-- A non-null `const char *` into a character array. -/
structure char_ptr where
  buf : Buffer
  off : Nat
deriving DecidableEq

/-- The address a pointer holds. -/
def char_ptr.address (p : char_ptr) : Nat := p.buf.addr + p.off

/-- The expression `*p`: undefined behaviour outside of the array's memory. -/
def char_ptr.read (p : char_ptr) : Exec char :=
  match p.buf.storage.get? p.off with
  | some c => .ret c
  | none => .undefined

/-- Equality `p == q` of two nullable pointers: equality of the addresses held. -/
def ptr_eq (p q : Option char_ptr) : Bool :=
  p.map char_ptr.address == q.map char_ptr.address

/-! ## The view -/

/-- The data members of `fsv::filtered_string_view`. -/
structure filtered_string_view where
  data_ : Option Buffer
  length_ : Nat
  predicate_ : filter

/-- The static member `default_predicate`. -/
def default_predicate : filter := fun _ => true

/-- The default constructor. -/
def filtered_string_view.default_ : filtered_string_view :=
  ⟨none, 0, default_predicate⟩

/-- The constructor from a `std::string`: `str.data()` and `str.size()`. -/
def filtered_string_view.of_string (str : Buffer) (predicate : filter) :
    filtered_string_view :=
  ⟨some str, str.bytes.length, predicate⟩

/-- The constructor from a `const char *`: `strlen(nullptr)` is undefined behaviour. -/
def filtered_string_view.of_c_str (str : Option Buffer) (predicate : filter) :
    Exec filtered_string_view :=
  match str with
  | none => .undefined
  | some b => .ret ⟨some b, strlen b, predicate⟩

/-- The member `data()`. -/
def filtered_string_view.data (v : filtered_string_view) : Option Buffer := v.data_

/-- The member `predicate()`. -/
def filtered_string_view.predicate (v : filtered_string_view) : filter := v.predicate_

/-- The loop of `size()`: `k` iterations are left, `i` is the loop counter and `size`
the running count. -/
def size_loop (predicate_ : filter) (data_ : Buffer) : Nat → Nat → Nat → Nat
  | 0, _, size => size
  | k + 1, i, size =>
    size_loop predicate_ data_ k (i + 1) (if predicate_ (data_.ref i) then size + 1 else size)

/-- The member `size()`. -/
def filtered_string_view.size (v : filtered_string_view) : Nat :=
  match v.data_ with
  | none => 0
  | some b => size_loop v.predicate_ b v.length_ 0 0

/-- The member `empty()`. -/
def filtered_string_view.empty (v : filtered_string_view) : Bool := v.size == 0

/-- The loop of `operator[]`: the first argument is the memory from `temp` on, `temp`
is the offset of the scanning pointer, `i` the count of accepted characters passed.
The result is the offset at which the loop stops. -/
def subscript_loop (predicate_ : filter) (base : Nat) : List char → Nat → Nat → Int → Exec Nat
  | [], _, _, _ => .undefined
  | c :: rest, temp, i, n =>
    if c = 0 then .ret temp
    else if predicate_ ⟨base + temp, c⟩ then
      if (i : Int) = n then .ret temp
      else subscript_loop predicate_ base rest (temp + 1) (i + 1) n
    else subscript_loop predicate_ base rest (temp + 1) i n

/-- The member `operator[]`; the result is the address of the returned reference.
A null `data_` is dereferenced by the loop condition. -/
def filtered_string_view.subscript (v : filtered_string_view) (n : Int) : Exec char_ptr :=
  match v.data_ with
  | none => .undefined
  | some b => (subscript_loop v.predicate_ b.addr b.storage 0 0 n).map (fun off => ⟨b, off⟩)

/-- The exception `std::domain_error` with its message. -/
structure domain_error where
  what : String
deriving DecidableEq

/-- The message of the exception thrown by `at`; `toString` stands for `std::to_string`. -/
def at_message (index : Int) : String :=
  "filtered_string_view::at(" ++ toString index ++ "): invalid index"

/-- The member `at`: either throws, or returns the reference of `operator[]`. The cast
`static_cast<int>(size())` keeps the value of a size that fits an `int`. -/
def filtered_string_view.at_ (v : filtered_string_view) (index : Int) :
    Exec (Except domain_error char_ptr) :=
  if index < 0 ∨ index ≥ (v.size : Int) then .ret (.error ⟨at_message index⟩)
  else (v.subscript index).map .ok

/-! ## Iterators -/

/-- A `const filtered_string_view *` (or a reference to a view): the address of the
view object and the object found there. -/
structure view_ptr where
  address : Nat
  pointee : filtered_string_view

/-- The data members of `filtered_string_view::iter`. -/
structure iter where
  fsv_ : view_ptr
  pointer_ : Option char_ptr
  size_ : Nat
  index_ : Nat

/-- The member `same_range`: the two views hold the same `data_` pointer, and the two
`predicate_` members have the same address, which is to say that the two views are the
same object. -/
def same_range (this other : view_ptr) : Bool :=
  (this.pointee.data_.map Buffer.addr == other.pointee.data_.map Buffer.addr)
    && (this.address == other.address)

/-- The iterator's `operator==`. -/
def iter.eq (lhs rhs : iter) : Bool :=
  same_range lhs.fsv_ rhs.fsv_ && ptr_eq lhs.pointer_ rhs.pointer_

/-- The iterator's `operator!=`. -/
def iter.ne (lhs rhs : iter) : Bool := !(iter.eq lhs rhs)

/-- The iterator's `operator*`. -/
def iter.deref (it : iter) : Exec char :=
  match it.pointer_ with
  | none => .undefined
  | some p => p.read

/-- The loop `while (!fsv_->predicate_(*pointer_)) ++pointer_;` of the iterator's
`operator++`: the first argument is the memory from `pointer_` on, the second the
offset of `pointer_`. The result is the offset at which the loop stops. -/
def skip_rejected (predicate_ : filter) (base : Nat) : List char → Nat → Exec Nat
  | [], _ => .undefined
  | c :: rest, pointer_ =>
    if predicate_ ⟨base + pointer_, c⟩ then .ret pointer_
    else skip_rejected predicate_ base rest (pointer_ + 1)

/-- The iterator's pre-increment `operator++`. -/
def iter.incr (it : iter) : Exec iter :=
  match it.pointer_ with
  | none => .undefined
  | some p =>
    if it.index_ + 1 = it.size_ then
      .ret ⟨it.fsv_, some ⟨p.buf, p.off + 1⟩, it.size_, it.index_ + 1⟩
    else
      (skip_rejected it.fsv_.pointee.predicate_ p.buf.addr
          (p.buf.storage.drop (p.off + 1)) (p.off + 1)).map
        (fun off => ⟨it.fsv_, some ⟨p.buf, off⟩, it.size_, it.index_ + 1⟩)

/-- The member `begin()` (and `cbegin()`). -/
def view_ptr.begin_ (this : view_ptr) : Exec iter :=
  if this.pointee.size = 0 then .ret ⟨this, none, 0, 0⟩
  else (this.pointee.subscript 0).map
    (fun p => ⟨this, some p, this.pointee.size, 0⟩)

/-- The member `end()` (and `cend()`). -/
def view_ptr.end_ (this : view_ptr) : Exec iter :=
  if this.pointee.size = 0 then .ret ⟨this, none, 0, 0⟩
  else (this.pointee.subscript ((this.pointee.size : Int) - 1)).map
    (fun p => ⟨this, some ⟨p.buf, p.off + 1⟩, this.pointee.size, this.pointee.size⟩)

/-- A bound on the number of times an iterator over the view can be advanced before
it leaves the memory of the array: each turn of a loop over the filtered sequence reads
through the iterator and moves it forward by at least one character, so the loops below
end within this many turns (`three_way_ne_out_of_fuel`, `to_string_ne_out_of_fuel`). -/
def filtered_string_view.fuel (v : filtered_string_view) : Nat :=
  match v.data_ with
  | none => 1
  | some b => b.storage.length + 1

/-- The range-for loop of `operator std::string`, from the iterator `it` to `e`. -/
def to_string_loop (e : iter) : Nat → iter → List char → Exec (List char)
  | 0, _, _ => .out_of_fuel
  | fuel + 1, it, string =>
    if iter.ne it e then
      it.deref.bind (fun c => it.incr.bind (fun it' => to_string_loop e fuel it' (string ++ [c])))
    else .ret string

/-- The conversion `operator std::string`. -/
def view_ptr.to_string (this : view_ptr) : Exec (List char) :=
  this.begin_.bind (fun b => this.end_.bind (fun e =>
    to_string_loop e this.pointee.fuel b []))

/-! ## Comparison -/

/-- The values of `std::strong_ordering`. -/
inductive strong_ordering where
  | less
  | equal
  | greater
deriving DecidableEq

/-- The constant `std::strong_ordering::equivalent`, which is the same value as
`std::strong_ordering::equal`. -/
def strong_ordering.equivalent : strong_ordering := .equal

/-- The comparison `a <=> b` of two `char`s. -/
def char_three_way (a b : char) : strong_ordering :=
  if a < b then .less else if a = b then .equal else .greater

/-- The test at the head of `operator==` and of `operator<=>`. -/
def null_vs_empty (lhs rhs : filtered_string_view) : Bool :=
  (lhs.data_.isNone && rhs.data_.isSome && rhs.length_ == 0)
    || (rhs.data_.isNone && lhs.data_.isSome && lhs.length_ == 0)

/-- The `while` loop of `operator<=>` together with the code that follows it. -/
def three_way_loop (lhs rhs : view_ptr) : Nat → iter → iter → Exec strong_ordering
  | 0, _, _ => .out_of_fuel
  | fuel + 1, iter1, iter2 =>
    lhs.end_.bind (fun lend => rhs.end_.bind (fun rend =>
      if iter.ne iter1 lend && iter.ne iter2 rend then
        iter1.deref.bind (fun c1 => iter2.deref.bind (fun c2 =>
          if c1 ≠ c2 then .ret (char_three_way c1 c2)
          else iter1.incr.bind (fun i1 => iter2.incr.bind (fun i2 =>
            three_way_loop lhs rhs fuel i1 i2))))
      else if iter.eq iter1 lend && iter.ne iter2 rend then .ret .less
      else if iter.ne iter1 lend && iter.eq iter2 rend then .ret .greater
      else .ret .equal))

/-- The friend `operator<=>` of two views. -/
def three_way (lhs rhs : view_ptr) : Exec strong_ordering :=
  if null_vs_empty lhs.pointee rhs.pointee then .ret strong_ordering.equivalent
  else lhs.begin_.bind (fun iter1 => rhs.begin_.bind (fun iter2 =>
    three_way_loop lhs rhs lhs.pointee.fuel iter1 iter2))

/-- The friend `operator==` of two views. -/
def view_eq (lhs rhs : view_ptr) : Exec Bool :=
  if null_vs_empty lhs.pointee rhs.pointee then .ret false
  else (three_way lhs rhs).map (fun o => o == strong_ordering.equal)

/-! ## compose -/

/-- The lambda `pred` of `compose`: the first filter that rejects decides. -/
def compose_pred : List filter → filter
  | [], _ => true
  | f :: filts, c => if !f c then false else compose_pred filts c

/-- The function `fsv::compose`. -/
def compose (fsv : filtered_string_view) (filts : List filter) : Exec filtered_string_view :=
  filtered_string_view.of_c_str fsv.data (compose_pred filts)

/-! ## substr -/

/-- The lambda `pred` of `substr`: `rcount` is not 0, the address of the character lies
between the pointers `start` and `end` (both included), and the predicate of the view
accepts the character. -/
def substr_pred (fsv : filtered_string_view) (rcount : Int) (start end_ : char_ptr) : filter :=
  fun c => decide (rcount ≠ 0) && decide (start.address ≤ c.addr)
    && decide (c.addr ≤ end_.address) && fsv.predicate c

/-- The least value of an `int`. -/
def INT_MIN : Int := -2147483648

/-- The greatest value of an `int`. -/
def INT_MAX : Int := 2147483647

/-- Whether an integer is a value of the type `int`. -/
def is_int (x : Int) : Bool :=
  decide (INT_MIN ≤ x) && decide (x ≤ INT_MAX)

/-- The `int` expression `a + b`: a sum of two `int`s that is not a value of `int` is
signed overflow, undefined behaviour. The operands of the code are `int`s; a length that
is beyond the convention on lengths, and so no `int`, is left as it is. -/
def int_add (a b : Int) : Exec Int :=
  if is_int a && is_int b && !is_int (a + b) then .undefined else .ret (a + b)

/-- The `int` expression `a - b`, with signed overflow as for `int_add`. -/
def int_sub (a b : Int) : Exec Int :=
  if is_int a && is_int b && !is_int (a - b) then .undefined else .ret (a - b)

/-- The function `fsv::substr`, with `pos` and `count` of type `int`: first `rcount`, then
`&fsv[pos]`, then `pos + rcount - 1` (the sum, then the difference) and `&fsv[...]` of
it. The cast `static_cast<int>(fsv.size())` keeps the value of a size that fits an
`int`. -/
def substr (fsv : filtered_string_view) (pos count : Int) : Exec filtered_string_view :=
  (if count ≤ 0 then int_sub (fsv.size : Int) pos else .ret count).bind (fun rcount =>
    (fsv.subscript pos).bind (fun start =>
      (int_add pos rcount).bind (fun sum => (int_sub sum 1).bind (fun last =>
        (fsv.subscript last).bind (fun end_ =>
          filtered_string_view.of_c_str fsv.data (substr_pred fsv rcount start end_))))))

/-! ## split -/

/-- The range-for loop of `find_delimiter_positions` over the view `fsv`, from the
iterator `it` to `e`, with the local variables `start`, `index`, `tok_iter`, `delim`
and the vector `delimiter_pos`. The result is the final `index` and the vector. On a
match `delim` has just been set when `tok_iter == tok.end() && delim` is tested, and on
a mismatch only `tok_iter` is reset. -/
def find_delimiter_positions_loop (tok : view_ptr) (e : iter) :
    Nat → iter → Int → Int → iter → Bool → List Int → Exec (Int × List Int)
  | 0, _, _, _, _, _, _ => .out_of_fuel
  | fuel + 1, it, start, index, tok_iter, delim, delimiter_pos =>
    if iter.ne it e then
      it.deref.bind (fun c => tok_iter.deref.bind (fun t =>
        if c = t then
          tok_iter.incr.bind (fun tok_iter' => tok.end_.bind (fun tend =>
            if iter.eq tok_iter' tend && true then
              tok.begin_.bind (fun tbegin => it.incr.bind (fun it' =>
                find_delimiter_positions_loop tok e fuel it'
                  (if !delim then index else start) (index + 1) tbegin false
                  (delimiter_pos ++ [if !delim then index else start, index + 1])))
            else
              it.incr.bind (fun it' =>
                find_delimiter_positions_loop tok e fuel it'
                  (if !delim then index else start) (index + 1) tok_iter' true delimiter_pos)))
        else
          tok.begin_.bind (fun tbegin => it.incr.bind (fun it' =>
            find_delimiter_positions_loop tok e fuel it' start (index + 1) tbegin delim
              delimiter_pos))))
    else .ret (index, delimiter_pos)

/-- The function `fsv::find_delimiter_positions`; the result is the vector
`delimiter_pos` on return. -/
def find_delimiter_positions (fsv tok : view_ptr) (delimiter_pos : List Int) :
    Exec (List Int) :=
  tok.begin_.bind (fun tok_iter => fsv.begin_.bind (fun b => fsv.end_.bind (fun e =>
    (find_delimiter_positions_loop tok e fsv.pointee.fuel b 0 0 tok_iter false
        delimiter_pos).map (fun r => r.2 ++ [r.1]))))

/-- The view `filtered_string_view("")`: the array of the string literal, at the address
`lit`, holds the terminating zero only. -/
def empty_literal_view (lit : Nat) : filtered_string_view :=
  ⟨some ⟨lit, []⟩, 0, default_predicate⟩

/-- The `while` loop of `split` over the part of `delimiter_pos` from `delim_iter` on: two
entries are read in each turn, and reading the second at the end of the vector is
undefined behaviour. -/
def split_loop (lit : Nat) (fsv : filtered_string_view) :
    List Int → Exec (List filtered_string_view)
  | [] => .ret []
  | [_] => .undefined
  | l :: r :: rest =>
    (if r - l = 0 then .ret (empty_literal_view lit) else substr fsv l (r - l)).bind
      (fun piece => (split_loop lit fsv rest).map (fun split_strings => piece :: split_strings))

/-- The function `fsv::split`; `lit` is the address of the string literal `""`. -/
def split (lit : Nat) (fsv tok : view_ptr) : Exec (List filtered_string_view) :=
  if tok.pointee.size = 0 then .ret [fsv.pointee]
  else (find_delimiter_positions fsv tok [0]).bind (fun delimiter_pos =>
    split_loop lit fsv.pointee delimiter_pos)

/-! ## Copy and move -/

/-- The copy constructor (defaulted): the new object. -/
def filtered_string_view.copy (other : filtered_string_view) : filtered_string_view :=
  ⟨other.data_, other.length_, other.predicate_⟩

/-- The move constructor: the new object, and `other` afterwards. -/
def filtered_string_view.move (other : filtered_string_view) :
    filtered_string_view × filtered_string_view :=
  (⟨other.data_, other.length_, other.predicate_⟩, ⟨none, 0, default_predicate⟩)

/-- The member `swap`: `*this` and `other` afterwards. -/
def filtered_string_view.swap (this other : filtered_string_view) :
    filtered_string_view × filtered_string_view :=
  (⟨other.data_, other.length_, other.predicate_⟩, ⟨this.data_, this.length_, this.predicate_⟩)

/-- The copy assignment `*this = other`: `*this` and `other` afterwards. When the two are
the same object nothing is done; otherwise a temporary copy of `other` is swapped with
`*this`. -/
def copy_assign (this other : view_ptr) : filtered_string_view × filtered_string_view :=
  if this.address ≠ other.address then
    ((other.pointee.copy.swap this.pointee).2, other.pointee)
  else (this.pointee, other.pointee)

/-- The move assignment `*this = std::move(other)`: `*this` and `other` afterwards. When
the two are the same object nothing is done; otherwise `other` is swapped with `*this`
and then reset member by member. -/
def move_assign (this other : view_ptr) : filtered_string_view × filtered_string_view :=
  if this.address ≠ other.address then
    ((other.pointee.swap this.pointee).2, ⟨none, 0, default_predicate⟩)
  else (this.pointee, other.pointee)

/-! ## Backward iteration -/

/-- The loop `while (!fsv_->predicate_(*pointer_)) pointer_--;` of the iterator's
`operator--`, with `pointer_` at the given offset of the array `b`: stepping below the
first element of the array is undefined behaviour. The result is the offset at which
the loop stops. -/
def skip_rejected_back (predicate_ : filter) (b : Buffer) : Nat → Exec Nat
  | 0 =>
    match b.storage.get? 0 with
    | none => .undefined
    | some c => if predicate_ ⟨b.addr + 0, c⟩ then .ret 0 else .undefined
  | pointer_ + 1 =>
    match b.storage.get? (pointer_ + 1) with
    | none => .undefined
    | some c =>
      if predicate_ ⟨b.addr + (pointer_ + 1), c⟩ then .ret (pointer_ + 1)
      else skip_rejected_back predicate_ b pointer_

/-- The iterator's pre-decrement `operator--`. The wrap-around of the unsigned `index_`
at 0 is not modelled: an `index_` of 0 stays 0. -/
def iter.decr (it : iter) : Exec iter :=
  match it.pointer_ with
  | none => .undefined
  | some p =>
    if p.off = 0 then .undefined
    else
      (skip_rejected_back it.fsv_.pointee.predicate_ p.buf (p.off - 1)).map
        (fun off => ⟨it.fsv_, some ⟨p.buf, off⟩, it.size_, it.index_ - 1⟩)

/-- The adapter `std::reverse_iterator<iterator>`: it holds the iterator `current`. -/
structure reverse_iterator where
  current : iter

/-- The member `rbegin()` (and `crbegin()`). -/
def view_ptr.rbegin (this : view_ptr) : Exec reverse_iterator :=
  this.end_.map (fun e => ⟨e⟩)

/-- The member `rend()` (and `crend()`). -/
def view_ptr.rend (this : view_ptr) : Exec reverse_iterator :=
  this.begin_.map (fun b => ⟨b⟩)

/-- The reverse iterator's `operator*`: a copy of `current` is decremented and read. -/
def reverse_iterator.deref (r : reverse_iterator) : Exec char :=
  r.current.decr.bind iter.deref

/-- The reverse iterator's `operator++`: `current` is decremented. -/
def reverse_iterator.incr (r : reverse_iterator) : Exec reverse_iterator :=
  r.current.decr.map (fun c => ⟨c⟩)

/-- The reverse iterators' `operator!=`: that of the iterators held. -/
def reverse_iterator.ne (a b : reverse_iterator) : Bool := iter.ne a.current b.current

/-- The walk that steps an iterator backward from `it` until it equals `b` and reads it
after each step; the characters are collected in the order visited. -/
def backward_walk_loop (b : iter) : Nat → iter → List char → Exec (List char)
  | 0, _, _ => .out_of_fuel
  | fuel + 1, it, visited =>
    if iter.ne it b then
      it.decr.bind (fun it' => it'.deref.bind (fun c =>
        backward_walk_loop b fuel it' (visited ++ [c])))
    else .ret visited

/-- The walk backward from `end()` until `begin()` is reached. -/
def view_ptr.backward_walk (this : view_ptr) : Exec (List char) :=
  this.end_.bind (fun e => this.begin_.bind (fun b =>
    backward_walk_loop b this.pointee.fuel e []))

/-- The loop `for (it = rbegin(); it != rend(); ++it) visit(*it)`, from `it` on. -/
def reverse_walk_loop (rend : reverse_iterator) :
    Nat → reverse_iterator → List char → Exec (List char)
  | 0, _, _ => .out_of_fuel
  | fuel + 1, it, visited =>
    if reverse_iterator.ne it rend then
      it.deref.bind (fun c => it.incr.bind (fun it' =>
        reverse_walk_loop rend fuel it' (visited ++ [c])))
    else .ret visited

/-- The iteration from `rbegin()` to `rend()`. -/
def view_ptr.reverse_walk (this : view_ptr) : Exec (List char) :=
  this.rbegin.bind (fun rb => this.rend.bind (fun re =>
    reverse_walk_loop re this.pointee.fuel rb []))

/-! ## Specification-level notions -/

/-- The number that a string of decimal digits denotes. -/
def decimal_value (cs : List Char) : Nat :=
  cs.foldl (fun acc c => 10 * acc + (c.toNat - 48)) 0

/-- A predicate that looks at the value of the character only. -/
def by_value (p : char → Bool) : filter := fun c => p c.val

/-- The accepted characters of the run `cs` of memory that starts at offset `off` of
the array at address `base`, each with its offset, in memory order. -/
def accepted (p : filter) (base off : Nat) (cs : List char) : List (Nat × char) :=
  (cs.enumFrom off).filter (fun x => p ⟨base + x.1, x.2⟩)

/-- The accepted characters of a view with their offsets: those at the positions in
`[0, length_)` whose character the predicate accepts; none for an absent buffer. -/
def filtered_string_view.accepted (v : filtered_string_view) : List (Nat × char) :=
  match v.data_ with
  | none => []
  | some b => fsv.accepted v.predicate_ b.addr 0 (b.bytes.take v.length_)

/-- The filtered content of a view: the characters at the positions in `[0, length_)`
that the predicate accepts, in buffer order. -/
def filtered_string_view.content (v : filtered_string_view) : List char :=
  v.accepted.map Prod.snd

/-- The views the iteration-based operations are specified for: the buffer is absent,
or it is present, holds no zero byte, and `length_` is its length. -/
def filtered_string_view.zero_free (v : filtered_string_view) : Prop :=
  match v.data_ with
  | none => True
  | some b => v.length_ = b.bytes.length ∧ ∀ c ∈ b.bytes, c ≠ 0

/-- The offset of the iterator of filtered rank `k`: that of the `k`-th accepted
character, and one past the last accepted character for `end()`. -/
def filtered_string_view.pos (v : filtered_string_view) (k : Nat) : Nat :=
  if k < v.accepted.length then (v.accepted.getD k (0, 0)).1
  else (v.accepted.getD (v.accepted.length - 1) (0, 0)).1 + 1

/-- The iterator of filtered rank `k` over the view `this`. -/
def view_ptr.nth_iter (this : view_ptr) (k : Nat) : iter :=
  match this.pointee.data_ with
  | none => ⟨this, none, 0, k⟩
  | some b =>
    if this.pointee.accepted.length = 0 then ⟨this, none, 0, k⟩
    else ⟨this, some ⟨b, this.pointee.pos k⟩, this.pointee.accepted.length, k⟩

/-- The shape of the vector `delimiter_pos` while `find_delimiter_positions` runs: it starts
with 0, holds an odd number of entries (the 0 and two for each recorded occurrence), is
non-decreasing, and its entries lie between 0 and `bound`. -/
def positions_ok (delimiter_pos : List Int) (bound : Int) : Prop :=
  delimiter_pos.head? = some 0 ∧ delimiter_pos.length % 2 = 1
    ∧ delimiter_pos.Pairwise (fun x y => x ≤ y) ∧ ∀ x ∈ delimiter_pos, 0 ≤ x ∧ x ≤ bound

/-- The entries that the scan for a token of the single byte `x` appends to `delimiter_pos`
while it runs over the characters `cs` at the filtered indices from `k` on: `i` and `i + 1`
for each index `i` that holds an `x`. -/
def single_byte_marks (x : char) : List char → Nat → List Int
  | [], _ => []
  | c :: cs, k =>
    if c = x then (k : Int) :: ((k + 1 : Nat) : Int) :: single_byte_marks x cs (k + 1)
    else single_byte_marks x cs (k + 1)

/-- Lexicographic comparison of two character sequences: the first position where they
differ decides, a strict prefix is less, identical sequences are equal. -/
def lex_compare : List char → List char → strong_ordering
  | [], [] => .equal
  | [], _ :: _ => .less
  | _ :: _, [] => .greater
  | x :: xs, y :: ys =>
    if x < y then .less else if y < x then .greater else lex_compare xs ys

/-! ## Basic facts -/

@[simp]
theorem Exec.bind_ret {α β : Type} (a : α) (f : α → Exec β) :
    (Exec.ret a).bind f = f a := rfl

@[simp]
theorem Exec.bind_undefined {α β : Type} (f : α → Exec β) :
    (Exec.undefined : Exec α).bind f = .undefined := rfl

@[simp]
theorem Exec.map_ret {α β : Type} (a : α) (f : α → β) :
    (Exec.ret a).map f = .ret (f a) := rfl

@[simp]
theorem Exec.map_undefined {α β : Type} (f : α → β) :
    (Exec.undefined : Exec α).map f = .undefined := rfl

theorem accepted_nil (p : filter) (base off : Nat) : accepted p base off [] = [] := rfl

theorem accepted_cons (p : filter) (base off : Nat) (c : char) (cs : List char) :
    accepted p base off (c :: cs) =
      if p ⟨base + off, c⟩ then (off, c) :: accepted p base (off + 1) cs
      else accepted p base (off + 1) cs := by
  simp [accepted, List.filter_cons]

theorem accepted_by_value (p : char → Bool) (base off : Nat) (cs : List char) :
    (accepted (by_value p) base off cs).map Prod.snd = cs.filter p := by
  induction cs generalizing off with
  | nil => rfl
  | cons c cs ih =>
    rw [accepted_cons]
    by_cases h : p c <;> simp [by_value, h, ih]

theorem le_of_mem_accepted (p : filter) (base off : Nat) (cs : List char) (x : Nat × char)
    (h : x ∈ accepted p base off cs) : off ≤ x.1 :=
  List.le_fst_of_mem_enumFrom (List.mem_filter.mp h).1

theorem accepted_getD_ge (p : filter) (base off : Nat) (cs : List char) (k : Nat)
    (hk : k < (accepted p base off cs).length) :
    off ≤ ((accepted p base off cs).getD k (0, 0)).1 := by
  apply le_of_mem_accepted p base off cs
  rw [List.getD_eq_getElem _ _ hk]
  exact List.getElem_mem hk

theorem Buffer.ref_eq (b : Buffer) (i : Nat) (h : i < b.bytes.length) :
    b.ref i = ⟨b.addr + i, b.bytes[i]⟩ := by
  simp [Buffer.ref, Buffer.storage, List.getD_eq_getElem?_getD, List.getElem?_append_left h,
    List.getElem?_eq_getElem h]

theorem size_loop_eq (p : filter) (b : Buffer) (k i size : Nat) (h : i + k ≤ b.bytes.length) :
    size_loop p b k i size
      = size + (accepted p b.addr i ((b.bytes.drop i).take k)).length := by
  induction k generalizing i size with
  | zero => simp [size_loop, accepted]
  | succ k ih =>
    have hi : i < b.bytes.length := by omega
    rw [size_loop, ih (i + 1) _ (by omega), List.drop_eq_getElem_cons hi, List.take_succ_cons,
      accepted_cons, Buffer.ref_eq b i hi]
    by_cases hp : p ⟨b.addr + i, b.bytes[i]⟩
    · simp [hp]; omega
    · simp [hp]

theorem size_eq_length_accepted (v : filtered_string_view)
    (h : ∀ b, v.data_ = some b → v.length_ ≤ b.bytes.length) :
    v.size = v.accepted.length := by
  unfold filtered_string_view.size filtered_string_view.accepted
  cases hd : v.data_ with
  | none => rfl
  | some b =>
    have := size_loop_eq v.predicate_ b v.length_ 0 0 (by simpa using h b hd)
    simpa using this

theorem size_eq_length_content (v : filtered_string_view)
    (h : ∀ b, v.data_ = some b → v.length_ ≤ b.bytes.length) :
    v.size = v.content.length := by
  simp [filtered_string_view.content, size_eq_length_accepted v h]

/-! ## The scanning loops on a run without zero bytes -/

theorem subscript_loop_zero_free (p : filter) (base : Nat) (cs : List char) (off i k : Nat)
    (hz : ∀ c ∈ cs, c ≠ 0) :
    subscript_loop p base (cs ++ [0]) off i ((i : Int) + k)
      = .ret ((accepted p base off cs).getD k (off + cs.length, 0)).1 := by
  induction cs generalizing off i k with
  | nil => simp [subscript_loop, accepted]
  | cons c cs ih =>
    have hc : c ≠ 0 := hz c (by simp)
    have hz' : ∀ c ∈ cs, c ≠ 0 := fun d hd => hz d (by simp [hd])
    rw [List.cons_append, subscript_loop, accepted_cons]
    by_cases hp : p ⟨base + off, c⟩
    · cases k with
      | zero => simp [hc, hp]
      | succ k =>
        have h1 : ¬ ((i : Int) = (i : Int) + ((k + 1 : Nat) : Int)) := by omega
        have h2 : ((i : Int) + ((k + 1 : Nat) : Int)) = (((i + 1 : Nat) : Int) + (k : Int)) := by
          push_cast; ring
        simp only [hc, hp, h1, if_false, if_true]
        rw [h2, ih (off + 1) (i + 1) k hz']
        simp [Nat.add_assoc, Nat.add_comm 1]
    · simp only [hc, hp, if_false, Bool.false_eq_true]
      rw [ih (off + 1) i k hz']
      simp [Nat.add_assoc, Nat.add_comm 1]

theorem skip_rejected_first (p : filter) (base : Nat) (cs tail : List char) (off : Nat)
    (h : 0 < (accepted p base off cs).length) :
    skip_rejected p base (cs ++ tail) off
      = .ret ((accepted p base off cs).getD 0 (0, 0)).1 := by
  induction cs generalizing off with
  | nil => simp [accepted] at h
  | cons c cs ih =>
    rw [accepted_cons] at h ⊢
    rw [List.cons_append, skip_rejected]
    by_cases hp : p ⟨base + off, c⟩
    · simp [hp]
    · simp only [hp, if_false, Bool.false_eq_true] at h ⊢
      exact ih (off + 1) h

theorem skip_rejected_next (p : filter) (base : Nat) (cs tail : List char) (off k : Nat)
    (h : k + 1 < (accepted p base off cs).length) :
    skip_rejected p base
        ((cs ++ tail).drop (((accepted p base off cs).getD k (0, 0)).1 + 1 - off))
        (((accepted p base off cs).getD k (0, 0)).1 + 1)
      = .ret ((accepted p base off cs).getD (k + 1) (0, 0)).1 := by
  induction cs generalizing off k with
  | nil => simp [accepted] at h
  | cons c cs ih =>
    rw [accepted_cons] at h ⊢
    by_cases hp : p ⟨base + off, c⟩
    · simp only [hp, if_true] at h ⊢
      cases k with
      | zero =>
        have h' : 0 < (accepted p base (off + 1) cs).length := by simpa using h
        simpa using skip_rejected_first p base cs tail (off + 1) h'
      | succ k =>
        have h' : k + 1 < (accepted p base (off + 1) cs).length := by simpa using h
        have hge := accepted_getD_ge p base (off + 1) cs k (by omega)
        have hd : ((accepted p base (off + 1) cs).getD k (0, 0)).1 + 1 - off
            = (((accepted p base (off + 1) cs).getD k (0, 0)).1 + 1 - (off + 1)) + 1 := by omega
        simp only [List.getD_cons_succ, List.cons_append]
        rw [hd, List.drop_succ_cons]
        exact ih (off + 1) k h'
    · simp only [hp, if_false, Bool.false_eq_true] at h ⊢
      have hge := accepted_getD_ge p base (off + 1) cs k (by omega)
      have hd : ((accepted p base (off + 1) cs).getD k (0, 0)).1 + 1 - off
          = (((accepted p base (off + 1) cs).getD k (0, 0)).1 + 1 - (off + 1)) + 1 := by omega
      rw [List.cons_append, hd, List.drop_succ_cons]
      exact ih (off + 1) k h

theorem accepted_getD_read (p : filter) (base off : Nat) (cs tail : List char) (k : Nat)
    (hk : k < (accepted p base off cs).length) :
    (cs ++ tail).get? (((accepted p base off cs).getD k (0, 0)).1 - off)
      = some ((accepted p base off cs).getD k (0, 0)).2 := by
  have hmem : (accepted p base off cs).getD k (0, 0) ∈ cs.enumFrom off := by
    rw [List.getD_eq_getElem _ _ hk]
    exact (List.mem_filter.mp (List.getElem_mem hk)).1
  generalize (accepted p base off cs).getD k (0, 0) = x at hmem ⊢
  obtain ⟨i, c⟩ := x
  obtain ⟨_, h2⟩ := List.mk_mem_enumFrom_iff_le_and_getElem?_sub.mp hmem
  have hlt : i - off < cs.length := by
    by_contra hge
    rw [List.getElem?_eq_none (Nat.le_of_not_lt hge)] at h2
    cases h2
  rw [List.get?_eq_getElem?, List.getElem?_append_left hlt]
  exact h2

theorem accepted_pairwise (p : filter) (base off : Nat) (cs : List char) :
    (accepted p base off cs).Pairwise (fun x y => x.1 < y.1) := by
  have h : (cs.enumFrom off).Pairwise (fun x y => x.1 < y.1) := by
    have := List.pairwise_lt_range' off cs.length
    rw [← List.enumFrom_map_fst off cs, List.pairwise_map] at this
    exact this
  exact h.filter _

theorem accepted_getD_mono (p : filter) (base off : Nat) (cs : List char) (k j : Nat)
    (hkj : k ≤ j) (hj : j < (accepted p base off cs).length) :
    ((accepted p base off cs).getD k (0, 0)).1 ≤ ((accepted p base off cs).getD j (0, 0)).1 := by
  rcases Nat.eq_or_lt_of_le hkj with rfl | hlt
  · exact le_rfl
  · rw [List.getD_eq_getElem _ _ hj, List.getD_eq_getElem _ _ (by omega)]
    exact Nat.le_of_lt (List.pairwise_iff_getElem.mp (accepted_pairwise p base off cs) k j
      (by omega) hj hlt)

/-! ## Iterators over a view without zero bytes -/

theorem zero_free_accepted {v : filtered_string_view} {b : Buffer} (hd : v.data_ = some b)
    (hz : v.zero_free) : v.accepted = accepted v.predicate_ b.addr 0 b.bytes := by
  unfold filtered_string_view.zero_free at hz
  rw [hd] at hz
  simp [filtered_string_view.accepted, hd, hz.1]

theorem zero_free_bytes {v : filtered_string_view} {b : Buffer} (hd : v.data_ = some b)
    (hz : v.zero_free) : ∀ c ∈ b.bytes, c ≠ 0 := by
  unfold filtered_string_view.zero_free at hz
  rw [hd] at hz
  exact hz.2

theorem zero_free_size (v : filtered_string_view) (hz : v.zero_free) :
    v.size = v.accepted.length := by
  apply size_eq_length_accepted
  intro b hd
  unfold filtered_string_view.zero_free at hz
  rw [hd] at hz
  exact le_of_eq hz.1

theorem accepted_none {v : filtered_string_view} (hd : v.data_ = none) : v.accepted = [] := by
  simp [filtered_string_view.accepted, hd]

theorem subscript_zero_free {v : filtered_string_view} {b : Buffer} (hd : v.data_ = some b)
    (hz : v.zero_free) (k : Nat) (hk : k < v.accepted.length) :
    v.subscript (k : Int) = .ret ⟨b, (v.accepted.getD k (0, 0)).1⟩ := by
  have h := subscript_loop_zero_free v.predicate_ b.addr b.bytes 0 0 k (zero_free_bytes hd hz)
  rw [zero_free_accepted hd hz] at hk ⊢
  simp only [Nat.cast_zero, zero_add] at h
  simp only [filtered_string_view.subscript, hd, Buffer.storage, h, Exec.map_ret]
  rw [List.getD_eq_getElem _ _ hk, List.getD_eq_getElem _ _ hk]

theorem begin_zero_free (this : view_ptr) (hz : this.pointee.zero_free) :
    this.begin_ = .ret (this.nth_iter 0) := by
  unfold view_ptr.begin_ view_ptr.nth_iter
  rw [zero_free_size _ hz]
  cases hd : this.pointee.data_ with
  | none => simp [accepted_none hd]
  | some b =>
    by_cases hm : this.pointee.accepted.length = 0
    · simp [hm]
    · have h := subscript_zero_free hd hz 0 (by omega)
      simp only [Nat.cast_zero] at h
      simp only [hm, if_false, h, Exec.map_ret, filtered_string_view.pos]
      rw [if_pos (by omega)]

theorem end_zero_free (this : view_ptr) (hz : this.pointee.zero_free) :
    this.end_ = .ret (this.nth_iter this.pointee.accepted.length) := by
  unfold view_ptr.end_ view_ptr.nth_iter
  rw [zero_free_size _ hz]
  cases hd : this.pointee.data_ with
  | none => simp [accepted_none hd]
  | some b =>
    by_cases hm : this.pointee.accepted.length = 0
    · simp [hm]
    · have h := subscript_zero_free hd hz (this.pointee.accepted.length - 1) (by omega)
      have hc : (((this.pointee.accepted.length - 1 : Nat)) : Int)
          = (this.pointee.accepted.length : Int) - 1 := by omega
      rw [hc] at h
      simp only [hm, if_false, h, Exec.map_ret, filtered_string_view.pos]
      rw [if_neg (by omega)]

theorem incr_zero_free (this : view_ptr) (hz : this.pointee.zero_free) (k : Nat)
    (hk : k < this.pointee.accepted.length) :
    (this.nth_iter k).incr = .ret (this.nth_iter (k + 1)) := by
  unfold view_ptr.nth_iter
  cases hd : this.pointee.data_ with
  | none => simp [accepted_none hd] at hk
  | some b =>
    have hm : ¬ this.pointee.accepted.length = 0 := by omega
    simp only [hm, if_false, iter.incr, filtered_string_view.pos, if_pos hk]
    by_cases hlast : k + 1 = this.pointee.accepted.length
    · have hk1 : this.pointee.accepted.length - 1 = k := by omega
      simp [hlast, hk1]
    · have hlt : k + 1 < this.pointee.accepted.length := by omega
      have hn := skip_rejected_next this.pointee.predicate_ b.addr b.bytes [0] 0 k
        (by rw [← zero_free_accepted hd hz]; exact hlt)
      rw [← zero_free_accepted hd hz] at hn
      simp only [Nat.sub_zero] at hn
      simp only [hlast, if_false, Buffer.storage, hn, Exec.map_ret, if_pos hlt]

theorem deref_zero_free (this : view_ptr) (hz : this.pointee.zero_free) (k : Nat)
    (hk : k < this.pointee.accepted.length) :
    (this.nth_iter k).deref = .ret (this.pointee.accepted.getD k (0, 0)).2 := by
  unfold view_ptr.nth_iter
  cases hd : this.pointee.data_ with
  | none => simp [accepted_none hd] at hk
  | some b =>
    have hm : ¬ this.pointee.accepted.length = 0 := by omega
    have hr := accepted_getD_read this.pointee.predicate_ b.addr 0 b.bytes [0] k
      (by rw [← zero_free_accepted hd hz]; exact hk)
    rw [← zero_free_accepted hd hz] at hr
    simp only [Nat.sub_zero] at hr
    simp only [hm, if_false, iter.deref, char_ptr.read, filtered_string_view.pos, if_pos hk,
      Buffer.storage, hr]

theorem iter_eq_zero_free (this : view_ptr) (hz : this.pointee.zero_free) (k : Nat)
    (hk : k ≤ this.pointee.accepted.length) :
    iter.eq (this.nth_iter k) (this.nth_iter this.pointee.accepted.length)
      = decide (k = this.pointee.accepted.length) := by
  unfold view_ptr.nth_iter
  cases hd : this.pointee.data_ with
  | none =>
    have h0 : this.pointee.accepted.length = 0 := by simp [accepted_none hd]
    have hk0 : k = 0 := by omega
    simp [iter.eq, same_range, ptr_eq, h0, hk0]
  | some b =>
    by_cases hm : this.pointee.accepted.length = 0
    · have hk0 : k = 0 := by omega
      simp [iter.eq, same_range, ptr_eq, hm, hk0]
    · simp only [hm, if_false, iter.eq, same_range, ptr_eq, filtered_string_view.pos,
        beq_self_eq_true, Bool.and_self, Bool.true_and, Option.map_some', char_ptr.address]
      by_cases hlt : k < this.pointee.accepted.length
      · have hmono := accepted_getD_mono this.pointee.predicate_ b.addr 0 b.bytes k
          (this.pointee.accepted.length - 1) (by omega)
          (by rw [← zero_free_accepted hd hz]; omega)
        rw [← zero_free_accepted hd hz] at hmono
        have hne : ¬ k = this.pointee.accepted.length := by omega
        simp only [if_pos hlt, lt_self_iff_false, if_false, hne, decide_False,
          beq_eq_false_iff_ne, ne_eq, Option.some.injEq]
        omega
      · have hke : k = this.pointee.accepted.length := by omega
        simp [hke]

theorem content_drop (v : filtered_string_view) (k : Nat) (hk : k < v.accepted.length) :
    v.content.drop k = (v.accepted.getD k (0, 0)).2 :: v.content.drop (k + 1) := by
  unfold filtered_string_view.content
  rw [← List.map_drop, List.drop_eq_getElem_cons hk, List.map_cons, List.map_drop,
    List.getD_eq_getElem _ _ hk]

theorem content_drop_length (v : filtered_string_view) :
    v.content.drop v.accepted.length = [] := by
  simp [filtered_string_view.content]

/-! ## The loops over the filtered sequence -/

theorem accepted_length_le (p : filter) (base off : Nat) (cs : List char) :
    (accepted p base off cs).length ≤ cs.length := by
  have h := List.length_filter_le (fun x : Nat × char => p ⟨base + x.1, x.2⟩) (cs.enumFrom off)
  simpa [accepted] using h

theorem accepted_length_lt_fuel (v : filtered_string_view) : v.accepted.length < v.fuel := by
  unfold filtered_string_view.accepted filtered_string_view.fuel
  cases v.data_ with
  | none => simp
  | some b =>
    have h := accepted_length_le v.predicate_ b.addr 0 (b.bytes.take v.length_)
    have h2 : (b.bytes.take v.length_).length ≤ b.bytes.length := by simp
    simp only [Buffer.storage, List.length_append, List.length_singleton]
    omega

theorem to_string_loop_zero_free (this : view_ptr) (hz : this.pointee.zero_free)
    (d k fuel : Nat) (string : List char)
    (hk : k + d = this.pointee.accepted.length) (hf : d < fuel) :
    to_string_loop (this.nth_iter this.pointee.accepted.length) fuel (this.nth_iter k) string
      = .ret (string ++ this.pointee.content.drop k) := by
  induction d generalizing k fuel string with
  | zero =>
    obtain ⟨fuel, rfl⟩ : ∃ f, fuel = f + 1 := ⟨fuel - 1, by omega⟩
    have hk' : k = this.pointee.accepted.length := by omega
    rw [to_string_loop, iter.ne, iter_eq_zero_free this hz k (by omega)]
    simp [hk', content_drop_length]
  | succ d ih =>
    obtain ⟨fuel, rfl⟩ : ∃ f, fuel = f + 1 := ⟨fuel - 1, by omega⟩
    have hlt : k < this.pointee.accepted.length := by omega
    have hne : ¬ k = this.pointee.accepted.length := by omega
    rw [to_string_loop, iter.ne, iter_eq_zero_free this hz k (by omega),
      deref_zero_free this hz k hlt, incr_zero_free this hz k hlt]
    simp only [hne, decide_False, Bool.not_false, if_true, Exec.bind_ret]
    rw [ih (k + 1) fuel _ (by omega) (by omega), content_drop _ k hlt]
    simp

theorem to_string_zero_free (this : view_ptr) (hz : this.pointee.zero_free) :
    this.to_string = .ret this.pointee.content := by
  unfold view_ptr.to_string
  rw [begin_zero_free this hz, end_zero_free this hz]
  simp only [Exec.bind_ret]
  rw [to_string_loop_zero_free this hz this.pointee.accepted.length 0 _ [] (by omega)
    (accepted_length_lt_fuel _)]
  simp

theorem three_way_loop_zero_free (lhs rhs : view_ptr) (hl : lhs.pointee.zero_free)
    (hr : rhs.pointee.zero_free) (d k1 k2 fuel : Nat)
    (hk1 : k1 + d = lhs.pointee.accepted.length) (hk2 : k2 ≤ rhs.pointee.accepted.length)
    (hf : d < fuel) :
    three_way_loop lhs rhs fuel (lhs.nth_iter k1) (rhs.nth_iter k2)
      = .ret (lex_compare (lhs.pointee.content.drop k1) (rhs.pointee.content.drop k2)) := by
  induction d generalizing k1 k2 fuel with
  | zero =>
    obtain ⟨fuel, rfl⟩ : ∃ f, fuel = f + 1 := ⟨fuel - 1, by omega⟩
    have hk' : k1 = lhs.pointee.accepted.length := by omega
    rw [three_way_loop, end_zero_free lhs hl, end_zero_free rhs hr]
    simp only [Exec.bind_ret, iter.ne, iter_eq_zero_free lhs hl k1 (by omega),
      iter_eq_zero_free rhs hr k2 hk2]
    subst hk'
    rw [content_drop_length]
    by_cases h2 : k2 = rhs.pointee.accepted.length
    · subst h2
      simp [content_drop_length, lex_compare]
    · rw [content_drop _ k2 (by omega)]
      simp [h2, lex_compare]
  | succ d ih =>
    obtain ⟨fuel, rfl⟩ : ∃ f, fuel = f + 1 := ⟨fuel - 1, by omega⟩
    have hlt : k1 < lhs.pointee.accepted.length := by omega
    have hne : ¬ k1 = lhs.pointee.accepted.length := by omega
    rw [three_way_loop, end_zero_free lhs hl, end_zero_free rhs hr]
    simp only [Exec.bind_ret, iter.ne, iter_eq_zero_free lhs hl k1 (by omega),
      iter_eq_zero_free rhs hr k2 hk2]
    rw [content_drop _ k1 hlt]
    by_cases h2 : k2 = rhs.pointee.accepted.length
    · subst h2
      simp [hne, content_drop_length, lex_compare]
    · have hlt2 : k2 < rhs.pointee.accepted.length := by omega
      rw [content_drop _ k2 hlt2, deref_zero_free lhs hl k1 hlt, deref_zero_free rhs hr k2 hlt2,
        incr_zero_free lhs hl k1 hlt, incr_zero_free rhs hr k2 hlt2]
      simp only [hne, h2, decide_False, Bool.not_false, Bool.and_self, if_true, Exec.bind_ret]
      rw [ih (k1 + 1) (k2 + 1) fuel (by omega) (by omega) (by omega)]
      generalize (lhs.pointee.accepted.getD k1 (0, 0)).2 = c1
      generalize (rhs.pointee.accepted.getD k2 (0, 0)).2 = c2
      by_cases hc : c1 = c2
      · simp [hc, lex_compare]
      · simp only [ne_eq, hc, not_false_eq_true, if_true, char_three_way, if_false, lex_compare]
        by_cases hlt' : c1 < c2
        · simp [hlt']
        · have hgt : c2 < c1 := lt_of_le_of_ne (not_lt.mp hlt') (Ne.symm hc)
          simp [hlt', hgt]

theorem content_of_length_zero {v : filtered_string_view} (h : v.length_ = 0) :
    v.content = [] := by
  unfold filtered_string_view.content filtered_string_view.accepted
  cases v.data_ with
  | none => rfl
  | some b => simp [h, accepted]

theorem content_of_none {v : filtered_string_view} (h : v.data_ = none) : v.content = [] := by
  simp [filtered_string_view.content, accepted_none h]

theorem null_vs_empty_content {a b : filtered_string_view} (h : null_vs_empty a b = true) :
    a.content = [] ∧ b.content = [] := by
  simp only [null_vs_empty, Bool.or_eq_true, Bool.and_eq_true, Option.isNone_iff_eq_none,
    beq_iff_eq] at h
  rcases h with ⟨⟨h1, _⟩, h3⟩ | ⟨⟨h1, _⟩, h3⟩
  · exact ⟨content_of_none h1, content_of_length_zero h3⟩
  · exact ⟨content_of_length_zero h3, content_of_none h1⟩

theorem three_way_zero_free (lhs rhs : view_ptr) (hl : lhs.pointee.zero_free)
    (hr : rhs.pointee.zero_free) :
    three_way lhs rhs = .ret (lex_compare lhs.pointee.content rhs.pointee.content) := by
  unfold three_way
  by_cases hg : null_vs_empty lhs.pointee rhs.pointee = true
  · obtain ⟨h1, h2⟩ := null_vs_empty_content hg
    simp [hg, h1, h2, lex_compare, strong_ordering.equivalent]
  · rw [if_neg hg, begin_zero_free lhs hl, begin_zero_free rhs hr]
    simp only [Exec.bind_ret]
    rw [three_way_loop_zero_free lhs rhs hl hr lhs.pointee.accepted.length 0 0 _ (by omega)
      (by omega) (accepted_length_lt_fuel _)]
    simp

/-! ## The subscript loop on arbitrary bytes -/

theorem subscript_loop_ge (p : filter) (base : Nat) (l : List char) (off i : Nat) (n : Int)
    (t : Nat) (h : subscript_loop p base l off i n = .ret t) : off ≤ t := by
  induction l generalizing off i with
  | nil => simp [subscript_loop] at h
  | cons c rest ih =>
    rw [subscript_loop] at h
    split_ifs at h with h0 hp hi
    · cases h; exact le_rfl
    · cases h; exact le_rfl
    · exact Nat.le_of_succ_le (ih _ _ h)
    · exact Nat.le_of_succ_le (ih _ _ h)

theorem subscript_loop_total (p : filter) (base : Nat) (cs : List char) (off i : Nat) (n : Int) :
    ∃ t, subscript_loop p base (cs ++ [0]) off i n = .ret t := by
  induction cs generalizing off i with
  | nil => exact ⟨off, by simp [subscript_loop]⟩
  | cons c cs ih =>
    rw [List.cons_append, subscript_loop]
    split_ifs
    · exact ⟨off, rfl⟩
    · exact ⟨off, rfl⟩
    · exact ih _ _
    · exact ih _ _

theorem subscript_loop_mono (p : filter) (base : Nat) (l : List char) (off i : Nat) (n n' : Int)
    (t t' : Nat) (hi : (i : Int) ≤ n) (hn : n ≤ n')
    (h : subscript_loop p base l off i n = .ret t)
    (h' : subscript_loop p base l off i n' = .ret t') : t ≤ t' := by
  induction l generalizing off i with
  | nil => simp [subscript_loop] at h
  | cons c rest ih =>
    rw [subscript_loop] at h h'
    by_cases h0 : c = 0
    · simp only [h0, if_true] at h h'
      cases h; cases h'; exact le_rfl
    · simp only [h0, if_false] at h h'
      by_cases hp : p ⟨base + off, c⟩
      · simp only [hp, if_true] at h h'
        by_cases hin : (i : Int) = n
        · simp only [hin, if_true] at h
          cases h
          split_ifs at h'
          · cases h'; exact le_rfl
          · exact Nat.le_of_succ_le (subscript_loop_ge _ _ _ _ _ _ _ h')
        · have hin' : ¬ (i : Int) = n' := by omega
          simp only [hin, hin', if_false] at h h'
          exact ih (off + 1) (i + 1) (by push_cast; omega) h h'
      · simp only [hp, if_false, Bool.false_eq_true] at h h'
        exact ih (off + 1) i hi h h'

theorem size_pos_data {v : filtered_string_view} (h : 0 < v.size) : ∃ b, v.data_ = some b := by
  cases hd : v.data_ with
  | none => simp [filtered_string_view.size, hd] at h
  | some b => exact ⟨b, rfl⟩

theorem subscript_total {v : filtered_string_view} {b : Buffer} (hd : v.data_ = some b) (n : Int) :
    ∃ off, v.subscript n = .ret ⟨b, off⟩
      ∧ subscript_loop v.predicate_ b.addr b.storage 0 0 n = .ret off := by
  obtain ⟨t, ht⟩ := subscript_loop_total v.predicate_ b.addr b.bytes 0 0 n
  refine ⟨t, ?_, ht⟩
  simp [filtered_string_view.subscript, hd, Buffer.storage, ht]

/-! ## compose -/

theorem strlen_zero_free (b : Buffer) (hz : ∀ c ∈ b.bytes, c ≠ 0) : strlen b = b.bytes.length := by
  unfold strlen
  rw [List.takeWhile_eq_self_iff.mpr]
  intro c hc
  simpa using hz c hc

theorem compose_pred_eq_all (fs : List filter) (r : char_ref) :
    compose_pred fs r = fs.all (fun f => f r) := by
  induction fs with
  | nil => rfl
  | cons f fs ih =>
    rw [compose_pred, ih, List.all_cons]
    cases hf : f r <;> simp

theorem all_by_value (ps : List (char → Bool)) (r : char_ref) :
    (ps.map by_value).all (fun f => f r) = ps.all (fun p => p r.val) := by
  induction ps with
  | nil => rfl
  | cons p ps ih => simp only [List.map_cons, List.all_cons, ih, by_value]

/-! ## The fuel bounds are never reached -/

theorem Exec.bind_ne_out_of_fuel {α β : Type} (x : Exec α) (f : α → Exec β)
    (hx : x ≠ .out_of_fuel) (hf : ∀ a, x = .ret a → f a ≠ .out_of_fuel) :
    x.bind f ≠ .out_of_fuel := by
  cases x with
  | ret a => exact hf a rfl
  | undefined => simp
  | out_of_fuel => exact absurd rfl hx

theorem subscript_loop_ne_out_of_fuel (p : filter) (base : Nat) (l : List char) (off i : Nat)
    (n : Int) : subscript_loop p base l off i n ≠ .out_of_fuel := by
  induction l generalizing off i with
  | nil => simp [subscript_loop]
  | cons c rest ih =>
    rw [subscript_loop]
    split_ifs
    · simp
    · simp
    · exact ih _ _
    · exact ih _ _

theorem subscript_cases (v : filtered_string_view) (n : Int) :
    v.subscript n = .undefined ∨ ∃ b off, v.data_ = some b ∧ v.subscript n = .ret ⟨b, off⟩ := by
  cases hd : v.data_ with
  | none => left; simp [filtered_string_view.subscript, hd]
  | some b =>
    obtain ⟨off, h, _⟩ := subscript_total hd n
    exact Or.inr ⟨b, off, rfl, h⟩

theorem begin_cases (this : view_ptr) :
    this.begin_ = .undefined ∨ ∃ it, this.begin_ = .ret it
      ∧ (it.pointer_ = none ∨ ∃ b off, this.pointee.data_ = some b ∧ it.pointer_ = some ⟨b, off⟩) := by
  unfold view_ptr.begin_
  split_ifs
  · exact Or.inr ⟨_, rfl, Or.inl rfl⟩
  · rcases subscript_cases this.pointee 0 with h | ⟨b, off, hb, h⟩
    · left; simp [h]
    · exact Or.inr ⟨_, by rw [h]; rfl, Or.inr ⟨b, off, hb, rfl⟩⟩

theorem end_ne_out_of_fuel (this : view_ptr) : this.end_ ≠ .out_of_fuel := by
  unfold view_ptr.end_
  split_ifs
  · simp
  · rcases subscript_cases this.pointee ((this.pointee.size : Int) - 1) with h | ⟨b, off, _, h⟩
    · simp [h]
    · simp [h]

theorem skip_rejected_cases (p : filter) (base : Nat) (l : List char) (off : Nat) :
    skip_rejected p base l off = .undefined
      ∨ ∃ t, off ≤ t ∧ skip_rejected p base l off = .ret t := by
  induction l generalizing off with
  | nil => left; rfl
  | cons c rest ih =>
    rw [skip_rejected]
    split_ifs
    · exact Or.inr ⟨off, le_rfl, rfl⟩
    · rcases ih (off + 1) with h | ⟨t, ht, h⟩
      · exact Or.inl h
      · exact Or.inr ⟨t, by omega, h⟩

theorem incr_cases (it : iter) :
    it.incr = .undefined ∨ ∃ p off, it.pointer_ = some p ∧ p.off + 1 ≤ off
      ∧ ∃ it', it.incr = .ret it' ∧ it'.pointer_ = some ⟨p.buf, off⟩ := by
  unfold iter.incr
  cases hp : it.pointer_ with
  | none => left; rfl
  | some p =>
    simp only
    split_ifs
    · exact Or.inr ⟨p, p.off + 1, rfl, le_rfl, _, rfl, rfl⟩
    · rcases skip_rejected_cases it.fsv_.pointee.predicate_ p.buf.addr
        (p.buf.storage.drop (p.off + 1)) (p.off + 1) with h | ⟨t, ht, h⟩
      · left; simp [h]
      · exact Or.inr ⟨p, t, rfl, ht, _, by rw [h]; rfl, rfl⟩

theorem deref_cases (it : iter) :
    it.deref = .undefined
      ∨ ∃ p c, it.pointer_ = some p ∧ p.off < p.buf.storage.length ∧ it.deref = .ret c := by
  unfold iter.deref
  cases hp : it.pointer_ with
  | none => left; rfl
  | some p =>
    simp only [char_ptr.read]
    cases hg : p.buf.storage.get? p.off with
    | none => left; rfl
    | some c =>
      refine Or.inr ⟨p, c, rfl, ?_, rfl⟩
      by_contra hlt
      rw [List.get?_eq_none.mpr (Nat.le_of_not_lt hlt)] at hg
      cases hg

theorem three_way_loop_ne_out_of_fuel (lhs rhs : view_ptr) (fuel : Nat) (iter1 iter2 : iter)
    (h1 : 1 ≤ fuel)
    (h2 : ∀ p, iter1.pointer_ = some p → p.buf.storage.length + 1 ≤ p.off + fuel) :
    three_way_loop lhs rhs fuel iter1 iter2 ≠ .out_of_fuel := by
  induction fuel generalizing iter1 iter2 with
  | zero => omega
  | succ fuel ih =>
    rw [three_way_loop]
    refine Exec.bind_ne_out_of_fuel _ _ (end_ne_out_of_fuel lhs) (fun lend _ => ?_)
    refine Exec.bind_ne_out_of_fuel _ _ (end_ne_out_of_fuel rhs) (fun rend _ => ?_)
    split_ifs
    · rcases deref_cases iter1 with hd | ⟨p, c1, hp, hlt, hd⟩
      · simp [hd]
      · rw [hd, Exec.bind_ret]
        rcases deref_cases iter2 with hd2 | ⟨_, c2, _, _, hd2⟩
        · simp [hd2]
        · rw [hd2, Exec.bind_ret]
          split_ifs
          · simp
          · rcases incr_cases iter1 with hi | ⟨q, off, hq, hoff, i1, hi, hi1⟩
            · simp [hi]
            · rw [hi, Exec.bind_ret]
              rcases incr_cases iter2 with hj | ⟨_, _, _, _, i2, hj, _⟩
              · simp [hj]
              · rw [hj, Exec.bind_ret]
                have hqp : q = p := by rw [hp] at hq; exact (Option.some.inj hq).symm
                subst hqp
                have hb := h2 q hp
                apply ih
                · omega
                · intro r hr
                  rw [hi1] at hr
                  cases Option.some.inj hr
                  simp only
                  omega
    · simp
    · simp
    · simp

/-- The loop of `operator<=>` is never cut off by its fuel bound: `a <=> b` returns or has
undefined behaviour. -/
theorem three_way_ne_out_of_fuel (lhs rhs : view_ptr) : three_way lhs rhs ≠ .out_of_fuel := by
  unfold three_way
  split_ifs
  · simp
  · rcases begin_cases lhs with h | ⟨it1, h, hit1⟩
    · simp [h]
    · rw [h, Exec.bind_ret]
      rcases begin_cases rhs with h' | ⟨it2, h', _⟩
      · simp [h']
      · rw [h', Exec.bind_ret]
        apply three_way_loop_ne_out_of_fuel
        · unfold filtered_string_view.fuel
          cases lhs.pointee.data_ <;> simp
        · intro p hp
          rcases hit1 with hn | ⟨b, off, hb, hs⟩
          · rw [hn] at hp; cases hp
          · rw [hs] at hp
            cases Option.some.inj hp
            simp [filtered_string_view.fuel, hb]

/-- The friend `operator==` is never cut off by a fuel bound either. -/
theorem view_eq_ne_out_of_fuel (lhs rhs : view_ptr) : view_eq lhs rhs ≠ .out_of_fuel := by
  unfold view_eq
  split_ifs
  · simp
  · exact Exec.bind_ne_out_of_fuel _ _ (three_way_ne_out_of_fuel lhs rhs) (fun _ _ => by simp)

theorem to_string_loop_ne_out_of_fuel (e : iter) (fuel : Nat) (it : iter) (string : List char)
    (h1 : 1 ≤ fuel)
    (h2 : ∀ p, it.pointer_ = some p → p.buf.storage.length + 1 ≤ p.off + fuel) :
    to_string_loop e fuel it string ≠ .out_of_fuel := by
  induction fuel generalizing it string with
  | zero => omega
  | succ fuel ih =>
    rw [to_string_loop]
    split_ifs
    · rcases deref_cases it with hd | ⟨p, c, hp, hlt, hd⟩
      · simp [hd]
      · rw [hd, Exec.bind_ret]
        rcases incr_cases it with hi | ⟨q, off, hq, hoff, i1, hi, hi1⟩
        · simp [hi]
        · rw [hi, Exec.bind_ret]
          have hqp : q = p := by rw [hp] at hq; exact (Option.some.inj hq).symm
          subst hqp
          have hb := h2 q hp
          apply ih
          · omega
          · intro r hr
            rw [hi1] at hr
            cases Option.some.inj hr
            simp only
            omega
    · simp

/-- The loop of `operator std::string` is never cut off by its fuel bound. -/
theorem to_string_ne_out_of_fuel (this : view_ptr) : this.to_string ≠ .out_of_fuel := by
  unfold view_ptr.to_string
  rcases begin_cases this with h | ⟨it1, h, hit1⟩
  · simp [h]
  · rw [h, Exec.bind_ret]
    refine Exec.bind_ne_out_of_fuel _ _ (end_ne_out_of_fuel this) (fun e _ => ?_)
    apply to_string_loop_ne_out_of_fuel
    · unfold filtered_string_view.fuel
      cases this.pointee.data_ <;> simp
    · intro p hp
      rcases hit1 with hn | ⟨b, off, hb, hs⟩
      · rw [hn] at hp; cases hp
      · rw [hs] at hp
        cases Option.some.inj hp
        simp [filtered_string_view.fuel, hb]

/-! ## The claims -/

/-- C1: `size()` of the view built over the bytes `b` (zero bytes included) with the byte
predicate `p` is the number of positions of `b` whose byte `p` accepts; `size()` of the
default-constructed view is 0; `empty()` holds exactly when `size()` is 0. -/
theorem size_counts_accepted_bytes (b : Buffer) (p : char → Bool) :
    (filtered_string_view.of_string b (by_value p)).size = b.bytes.countP p
      ∧ filtered_string_view.default_.size = 0
      ∧ ∀ v : filtered_string_view, v.empty = true ↔ v.size = 0 := by
  refine ⟨?_, rfl, fun v => by simp [filtered_string_view.empty]⟩
  rw [size_eq_length_content _ (by
    intro b' hb'
    simp only [filtered_string_view.of_string, Option.some.injEq] at hb'
    subst hb'
    exact le_rfl)]
  simp [filtered_string_view.content, filtered_string_view.accepted,
    filtered_string_view.of_string, List.countP_eq_length_filter, ← accepted_by_value p b.addr 0]

/-- C2: for bytes `b` without a zero byte and a byte predicate `p`, `operator std::string` of
the view over `b` with `p`, which walks `begin()` to `end()`, returns the bytes of `b` that `p`
accepts, in buffer order, a string of `size()` bytes; the default-constructed view converts
to the empty string. -/
theorem to_string_is_filter (this : Nat) (b : Buffer) (p : char → Bool)
    (hz : ∀ c ∈ b.bytes, c ≠ 0) :
    view_ptr.to_string ⟨this, filtered_string_view.of_string b (by_value p)⟩
        = .ret (b.bytes.filter p)
      ∧ (b.bytes.filter p).length = (filtered_string_view.of_string b (by_value p)).size
      ∧ view_ptr.to_string ⟨this, filtered_string_view.default_⟩ = .ret [] := by
  have hzf : (filtered_string_view.of_string b (by_value p)).zero_free := ⟨rfl, hz⟩
  have hc : (filtered_string_view.of_string b (by_value p)).content = b.bytes.filter p := by
    simp [filtered_string_view.content, filtered_string_view.accepted,
      filtered_string_view.of_string, ← accepted_by_value p b.addr 0]
  refine ⟨?_, ?_, ?_⟩
  · rw [to_string_zero_free _ hzf, hc]
  · rw [← hc, size_eq_length_content _ (fun b' hb' => by
      simp only [filtered_string_view.of_string, Option.some.injEq] at hb'
      subst hb'
      exact le_rfl)]
  · exact to_string_zero_free ⟨this, filtered_string_view.default_⟩ trivial

/-- Witness of C2 on the characters of "vizsla" with the predicate that accepts
`a`, `z` and `v`. -/
theorem to_string_is_filter_witness :
    view_ptr.to_string ⟨64, filtered_string_view.of_string ⟨4096, [118, 105, 122, 115, 108, 97]⟩
        (by_value (fun c => c = 97 || c = 122 || c = 118))⟩ = .ret [118, 122, 97] :=
  (to_string_is_filter 64 ⟨4096, [118, 105, 122, 115, 108, 97]⟩
    (fun c => c = 97 || c = 122 || c = 118) (by decide)).1

/-- C3, at the failing input: over the `std::string` of the three bytes `a`, zero, `b` with the
accept-all predicate, `size()` is 3 and the accepted byte of rank 2 is `b`, but `operator[](2)`
stops at the zero byte at offset 1 and returns it. -/
theorem subscript_stops_at_zero_byte :
    (filtered_string_view.of_string ⟨4096, [97, 0, 98]⟩ default_predicate).size = 3
      ∧ (filtered_string_view.of_string ⟨4096, [97, 0, 98]⟩ default_predicate).content
          = [97, 0, 98]
      ∧ (filtered_string_view.of_string ⟨4096, [97, 0, 98]⟩ default_predicate).subscript 2
          = .ret ⟨⟨4096, [97, 0, 98]⟩, 1⟩
      ∧ ((filtered_string_view.of_string ⟨4096, [97, 0, 98]⟩ default_predicate).subscript 2).bind
          char_ptr.read = .ret 0 := by
  decide

theorem digitChar_value : ∀ k, k < 10 →
    (Nat.digitChar k).toNat - 48 = k ∧ Nat.digitChar k ≠ '-' := by
  decide

theorem decimal_value_append (xs : List Char) (c : Char) :
    decimal_value (xs ++ [c]) = 10 * decimal_value xs + (c.toNat - 48) := by
  simp [decimal_value, List.foldl_append]

theorem toDigitsCore_decimal (fuel : Nat) : ∀ (n : Nat) (ds : List Char), n < fuel →
    ∃ L, Nat.toDigitsCore 10 fuel n ds = L ++ ds ∧ decimal_value L = n
      ∧ L.head? ≠ some '-' ∧ L ≠ [] := by
  induction fuel with
  | zero => intro n ds h; omega
  | succ fuel ih =>
    intro n ds h
    obtain ⟨hv, hm⟩ := digitChar_value (n % 10) (Nat.mod_lt _ (by decide))
    by_cases h0 : n / 10 = 0
    · refine ⟨[Nat.digitChar (n % 10)], ?_, ?_, ?_, by simp⟩
      · simp [Nat.toDigitsCore, h0]
      · simp only [decimal_value, List.foldl_cons, List.foldl_nil, hv]; omega
      · simpa using hm
    · obtain ⟨L, hL, hval, hhead, hne⟩ := ih (n / 10) (Nat.digitChar (n % 10) :: ds) (by omega)
      refine ⟨L ++ [Nat.digitChar (n % 10)], ?_, ?_, ?_, by simp⟩
      · simp [Nat.toDigitsCore, h0, hL]
      · rw [decimal_value_append, hval, hv]; omega
      · cases L with
        | nil => exact absurd rfl hne
        | cons a L => simpa using hhead

/-- The decimal numeral of a natural number denotes that number and has no sign. -/
theorem repr_decimal (n : Nat) :
    decimal_value (Nat.repr n).data = n ∧ (Nat.repr n).data.head? ≠ some '-' := by
  obtain ⟨L, hL, hval, hhead, _⟩ := toDigitsCore_decimal (n + 1) n [] (by omega)
  have hd : (Nat.repr n).data = L := by
    simp [Nat.repr, Nat.toDigits, hL, List.asString]
  rw [hd]
  exact ⟨hval, hhead⟩

/-- Two integers with the same decimal numeral are equal. -/
theorem toString_int_injective (i j : Int) (h : toString i = toString j) : i = j := by
  have hd := congrArg String.data h
  cases i with
  | ofNat m =>
    cases j with
    | ofNat k =>
      have h' : (Nat.repr m).data = (Nat.repr k).data := hd
      have := congrArg decimal_value h'
      rw [(repr_decimal m).1, (repr_decimal k).1] at this
      rw [this]
    | negSucc k =>
      exfalso
      have h' : (Nat.repr m).data = '-' :: (Nat.repr (k + 1)).data := hd
      apply (repr_decimal m).2
      rw [h']; rfl
  | negSucc m =>
    cases j with
    | ofNat k =>
      exfalso
      have h' : '-' :: (Nat.repr (m + 1)).data = (Nat.repr k).data := hd
      apply (repr_decimal k).2
      rw [← h']; rfl
    | negSucc k =>
      have h' : '-' :: (Nat.repr (m + 1)).data = '-' :: (Nat.repr (k + 1)).data := hd
      have htl := List.tail_eq_of_cons_eq h'
      have := congrArg decimal_value htl
      rw [(repr_decimal (m + 1)).1, (repr_decimal (k + 1)).1] at this
      have hmk : m = k := by omega
      rw [hmk]

/-- The message of the exception of `at` determines the index. -/
theorem at_message_injective (i j : Int) (h : at_message i = at_message j) : i = j := by
  apply toString_int_injective
  have hd := congrArg String.data h
  simp only [at_message, String.data_append] at hd
  have h1 := List.append_cancel_right hd
  have h2 := List.append_cancel_left h1
  exact String.ext h2

/-- An exception of `at(i)` is the one with the message for `i`. -/
theorem at_error_message (v : filtered_string_view) (i : Int) (e : domain_error)
    (h : v.at_ i = .ret (.error e)) : e = ⟨at_message i⟩ := by
  unfold filtered_string_view.at_ at h
  split_ifs at h with hc
  · cases h; rfl
  · cases hs : v.subscript i with
    | ret r => rw [hs] at h; cases h
    | undefined => rw [hs] at h; cases h
    | out_of_fuel => rw [hs] at h; cases h

/-- C4: `at(i)` throws the `std::domain_error` whose message carries `i`, the text
"filtered_string_view::at(" followed by the decimal numeral of `i` and by
"): invalid index", exactly when `i < 0` or `i >= size()`; for every other `i` it returns,
and what it returns is the reference that `operator[](i)` returns. The index can be read
off the exception: two calls of `at` that throw equal exceptions, on any views, were given
the same index. -/
theorem at_checks_index (v : filtered_string_view) (i : Int) :
    ((i < 0 ∨ (v.size : Int) ≤ i) ↔ v.at_ i = .ret (.error
        ⟨"filtered_string_view::at(" ++ toString i ++ "): invalid index"⟩))
      ∧ (¬ (i < 0 ∨ (v.size : Int) ≤ i) ↔
          ∃ r, v.subscript i = .ret r ∧ v.at_ i = .ret (.ok r))
      ∧ (∀ (w : filtered_string_view) (j : Int) (e : domain_error),
          v.at_ i = .ret (.error e) → w.at_ j = .ret (.error e) → i = j) := by
  have hinj : ∀ (w : filtered_string_view) (j : Int) (e : domain_error),
      v.at_ i = .ret (.error e) → w.at_ j = .ret (.error e) → i = j := by
    intro w j e h1 h2
    have e1 := at_error_message v i e h1
    have e2 := at_error_message w j e h2
    rw [e1] at e2
    exact at_message_injective i j (congrArg domain_error.what e2)
  by_cases h : i < 0 ∨ (v.size : Int) ≤ i
  · have hat : v.at_ i = .ret (.error
        ⟨"filtered_string_view::at(" ++ toString i ++ "): invalid index"⟩) := by
      simp [filtered_string_view.at_, h, at_message]
    refine ⟨⟨fun _ => hat, fun _ => h⟩, ⟨fun hn => absurd h hn, ?_⟩, hinj⟩
    rintro ⟨r, _, hr⟩
    rw [hat] at hr
    cases hr
  · have hpos : 0 < v.size := by omega
    obtain ⟨b, hb⟩ := size_pos_data hpos
    obtain ⟨off, hoff, _⟩ := subscript_total hb i
    have hat : v.at_ i = .ret (.ok ⟨b, off⟩) := by
      simp [filtered_string_view.at_, h, hoff]
    refine ⟨⟨fun h' => absurd h' h, ?_⟩, ⟨fun _ => ⟨_, hoff, hat⟩, fun _ => h⟩, hinj⟩
    intro hr
    rw [hat] at hr
    cases hr

/-- Witness of C4: on "Malamute" filtered to its vowels, `at(4)` and `at(-1)` throw, with
the messages for 4 and for -1, and `at(3)` returns the reference of `operator[](3)`, the
`e` at offset 7. -/
theorem at_checks_index_witness :
    (filtered_string_view.of_string ⟨4096, [77, 97, 108, 97, 109, 117, 116, 101]⟩
        (by_value (fun c => c = 97 || c = 101 || c = 105 || c = 111 || c = 117))).at_ 4
      = .ret (.error ⟨"filtered_string_view::at(4): invalid index"⟩)
    ∧ (filtered_string_view.of_string ⟨4096, [77, 97, 108, 97, 109, 117, 116, 101]⟩
        (by_value (fun c => c = 97 || c = 101 || c = 105 || c = 111 || c = 117))).at_ (-1)
      = .ret (.error ⟨"filtered_string_view::at(-1): invalid index"⟩)
    ∧ ∃ r, (filtered_string_view.of_string ⟨4096, [77, 97, 108, 97, 109, 117, 116, 101]⟩
        (by_value (fun c => c = 97 || c = 101 || c = 105 || c = 111 || c = 117))).subscript 3
          = .ret r
      ∧ (filtered_string_view.of_string ⟨4096, [77, 97, 108, 97, 109, 117, 116, 101]⟩
        (by_value (fun c => c = 97 || c = 101 || c = 105 || c = 111 || c = 117))).at_ 3
          = .ret (.ok r) :=
  ⟨(at_checks_index _ 4).1.mp (by decide), (at_checks_index _ (-1)).1.mp (by decide),
    (at_checks_index _ 3).2.1.mp (by decide)⟩

/-- C5: for views `a` and `b` that are each default-constructed or over a present buffer
without zero bytes, with any predicates, `a <=> b` returns the lexicographic comparison of
their filtered byte sequences. -/
theorem three_way_is_lexicographic (a b : view_ptr) (ha : a.pointee.zero_free)
    (hb : b.pointee.zero_free) :
    three_way a b = .ret (lex_compare a.pointee.content b.pointee.content) :=
  three_way_zero_free a b ha hb

/-- Witness of C5: "aaa" against "aaaa" filtered to its `a`s is less. -/
theorem three_way_is_lexicographic_witness :
    three_way ⟨64, filtered_string_view.of_string ⟨4096, [97, 97, 97]⟩ default_predicate⟩
        ⟨128, filtered_string_view.of_string ⟨8192, [97, 98, 97, 97, 97]⟩
          (by_value (fun c => c = 97))⟩
      = .ret .less :=
  three_way_is_lexicographic
    ⟨64, filtered_string_view.of_string ⟨4096, [97, 97, 97]⟩ default_predicate⟩
    ⟨128, filtered_string_view.of_string ⟨8192, [97, 98, 97, 97, 97]⟩
      (by_value (fun c => c = 97))⟩
    ⟨rfl, by decide⟩ ⟨rfl, by decide⟩

/-- C6: the default-constructed view `d` and a view `e` over a present buffer with `length_`
0, whatever its predicate, are not equal in either order, although both have `size()` 0. -/
theorem default_ne_empty_buffer (d e : view_ptr) (buf : Buffer)
    (hd : d.pointee = filtered_string_view.default_)
    (he : e.pointee.data_ = some buf) (hl : e.pointee.length_ = 0) :
    view_eq d e = .ret false ∧ view_eq e d = .ret false
      ∧ d.pointee.size = 0 ∧ e.pointee.size = 0 := by
  refine ⟨?_, ?_, ?_, ?_⟩
  · simp [view_eq, null_vs_empty, hd, he, hl, filtered_string_view.default_]
  · simp [view_eq, null_vs_empty, hd, he, hl, filtered_string_view.default_]
  · rw [hd]; rfl
  · simp [filtered_string_view.size, he, hl, size_loop]

/-- Witness of C6: the default-constructed view against the view over the empty string. -/
theorem default_ne_empty_buffer_witness :
    view_eq ⟨64, filtered_string_view.default_⟩
        ⟨128, filtered_string_view.of_string ⟨4096, []⟩ default_predicate⟩ = .ret false
      ∧ view_eq ⟨128, filtered_string_view.of_string ⟨4096, []⟩ default_predicate⟩
        ⟨64, filtered_string_view.default_⟩ = .ret false
      ∧ filtered_string_view.default_.size = 0
      ∧ (filtered_string_view.of_string ⟨4096, []⟩ default_predicate).size = 0 :=
  default_ne_empty_buffer ⟨64, filtered_string_view.default_⟩
    ⟨128, filtered_string_view.of_string ⟨4096, []⟩ default_predicate⟩ ⟨4096, []⟩ rfl rfl rfl

/-- C7 fails as stated: for the default-constructed view and the view over the empty string,
`==` is false while `<=>` returns `equivalent`, which is the value `equal`. -/
theorem eq_disagrees_with_three_way :
    ¬ (view_eq ⟨64, filtered_string_view.default_⟩
          ⟨128, filtered_string_view.of_string ⟨4096, []⟩ default_predicate⟩ = .ret true
        ↔ three_way ⟨64, filtered_string_view.default_⟩
            ⟨128, filtered_string_view.of_string ⟨4096, []⟩ default_predicate⟩
          = .ret .equal) := by
  decide

/-- C7, amended: unless one view has an absent buffer and the other a present buffer with
`length_` 0, `a == b` returns true exactly when `a <=> b` returns `equal`, and whenever
`a <=> b` returns, `a == b` returns whether its result is `equal` (so exactly one of `a < b`,
`a == b`, `a > b` holds); for the excepted pairs `a == b` is false and `a <=> b` is
`equivalent`. -/
theorem eq_iff_three_way_equal (a b : view_ptr) :
    (null_vs_empty a.pointee b.pointee = false →
        (view_eq a b = .ret true ↔ three_way a b = .ret .equal)
          ∧ ∀ o, three_way a b = .ret o → view_eq a b = .ret (o == strong_ordering.equal))
      ∧ (null_vs_empty a.pointee b.pointee = true →
        view_eq a b = .ret false ∧ three_way a b = .ret strong_ordering.equivalent) := by
  constructor
  · intro hg
    have hv : view_eq a b = (three_way a b).map (fun o => o == strong_ordering.equal) := by
      simp [view_eq, hg]
    rw [hv]
    cases ht : three_way a b with
    | ret o => cases o <;> simp
    | undefined => simp
    | out_of_fuel => simp [Exec.map, Exec.bind]
  · intro hg
    simp [view_eq, three_way, hg]

/-- Witness of C7 amended: "aaa" against "zzz". -/
theorem eq_iff_three_way_equal_witness :
    (view_eq ⟨64, filtered_string_view.of_string ⟨4096, [97, 97, 97]⟩ default_predicate⟩
        ⟨128, filtered_string_view.of_string ⟨8192, [122, 122, 122]⟩ default_predicate⟩
      = .ret true
      ↔ three_way ⟨64, filtered_string_view.of_string ⟨4096, [97, 97, 97]⟩ default_predicate⟩
        ⟨128, filtered_string_view.of_string ⟨8192, [122, 122, 122]⟩ default_predicate⟩
      = .ret .equal) :=
  ((eq_iff_three_way_equal
    ⟨64, filtered_string_view.of_string ⟨4096, [97, 97, 97]⟩ default_predicate⟩
    ⟨128, filtered_string_view.of_string ⟨8192, [122, 122, 122]⟩ default_predicate⟩).1
      (by decide)).1

/-- C8 fails as stated: against the view over "a" whose predicate rejects everything, the
default-constructed view compares `==` and `<=>` returns `equal`, not `less`. -/
theorem default_vs_all_rejected :
    ¬ (view_eq ⟨64, filtered_string_view.default_⟩
          ⟨128, filtered_string_view.of_string ⟨4096, [97]⟩ (fun _ => false)⟩ = .ret false
        ∧ three_way ⟨64, filtered_string_view.default_⟩
          ⟨128, filtered_string_view.of_string ⟨4096, [97]⟩ (fun _ => false)⟩ = .ret .less) := by
  decide

/-- C8, amended: for the default-constructed view `d` and every view `v` with at least one
accepted byte (`size() > 0`), whatever its bytes, `d == v` is false and `d <=> v` is `less`. -/
theorem default_less_than_nonempty (d : Nat) (v : view_ptr) (hv : 0 < v.pointee.size) :
    view_eq ⟨d, filtered_string_view.default_⟩ v = .ret false
      ∧ three_way ⟨d, filtered_string_view.default_⟩ v = .ret .less := by
  obtain ⟨b, hb⟩ := size_pos_data hv
  have hlen : v.pointee.length_ ≠ 0 := by
    intro h0
    simp [filtered_string_view.size, hb, h0, size_loop] at hv
  have hg : null_vs_empty filtered_string_view.default_ v.pointee = false := by
    simp [null_vs_empty, filtered_string_view.default_, hb, hlen]
  obtain ⟨t0, h0, l0⟩ := subscript_total hb 0
  obtain ⟨t1, h1, l1⟩ := subscript_total hb ((v.pointee.size : Int) - 1)
  have hmono : t0 ≤ t1 :=
    subscript_loop_mono _ _ _ 0 0 0 ((v.pointee.size : Int) - 1) t0 t1 (by simp) (by omega) l0 l1
  have hsz : ¬ v.pointee.size = 0 := by omega
  have hne : ¬ (b.addr + t0 = b.addr + (t1 + 1)) := by omega
  have hbd : view_ptr.begin_ ⟨d, filtered_string_view.default_⟩
      = .ret ⟨⟨d, filtered_string_view.default_⟩, none, 0, 0⟩ := by
    simp [view_ptr.begin_, show filtered_string_view.default_.size = 0 from rfl]
  have hed : view_ptr.end_ ⟨d, filtered_string_view.default_⟩
      = .ret ⟨⟨d, filtered_string_view.default_⟩, none, 0, 0⟩ := by
    simp [view_ptr.end_, show filtered_string_view.default_.size = 0 from rfl]
  have hbv : v.begin_ = .ret ⟨v, some ⟨b, t0⟩, v.pointee.size, 0⟩ := by
    simp [view_ptr.begin_, hsz, h0]
  have hev : v.end_ = .ret ⟨v, some ⟨b, t1 + 1⟩, v.pointee.size, v.pointee.size⟩ := by
    simp [view_ptr.end_, hsz, h1]
  have ht : three_way ⟨d, filtered_string_view.default_⟩ v = .ret .less := by
    rw [three_way, if_neg (by simp [hg]), hbd, hbv]
    simp only [Exec.bind_ret, show filtered_string_view.default_.fuel = 1 from rfl]
    rw [three_way_loop, hed, hev]
    simp [iter.ne, iter.eq, same_range, ptr_eq, char_ptr.address, hne]
  refine ⟨?_, ht⟩
  simp [view_eq, hg, ht]

/-- Witness of C8 amended: the default-constructed view against "adam". -/
theorem default_less_than_nonempty_witness :
    view_eq ⟨64, filtered_string_view.default_⟩
        ⟨128, filtered_string_view.of_string ⟨4096, [97, 100, 97, 109]⟩ default_predicate⟩
        = .ret false
      ∧ three_way ⟨64, filtered_string_view.default_⟩
        ⟨128, filtered_string_view.of_string ⟨4096, [97, 100, 97, 109]⟩ default_predicate⟩
        = .ret .less :=
  default_less_than_nonempty 64
    ⟨128, filtered_string_view.of_string ⟨4096, [97, 100, 97, 109]⟩ default_predicate⟩
    (by decide)

/-- C9, at the failing input: the default-constructed view equals the view over "a" whose
predicate rejects everything, which equals the view over the empty string, but the
default-constructed view does not equal the view over the empty string. -/
theorem view_eq_not_transitive :
    view_eq ⟨64, filtered_string_view.default_⟩
        ⟨128, filtered_string_view.of_string ⟨4096, [97]⟩ (fun _ => false)⟩ = .ret true
      ∧ view_eq ⟨128, filtered_string_view.of_string ⟨4096, [97]⟩ (fun _ => false)⟩
        ⟨192, filtered_string_view.of_string ⟨8192, []⟩ default_predicate⟩ = .ret true
      ∧ view_eq ⟨64, filtered_string_view.default_⟩
        ⟨192, filtered_string_view.of_string ⟨8192, []⟩ default_predicate⟩ = .ret false := by
  decide

/-- C10: for a view `v` over a present buffer `b` without zero bytes, whatever the predicate
of `v`, and a list `fs` of predicates, `compose(v, fs)` returns a view over the same buffer
whose filtered content is the bytes of `b` that every predicate of `fs` accepts, in buffer
order, which is also what the view converts to as a string; for predicates that look at the
byte only this is `b` filtered by their conjunction, and for the empty list it is all of `b`. -/
theorem compose_filters_whole_buffer (v : filtered_string_view) (b : Buffer) (fs : List filter)
    (hd : v.data_ = some b) (hz : ∀ c ∈ b.bytes, c ≠ 0) :
    ∃ w, compose v fs = .ret w ∧ w.data_ = some b
      ∧ w.content = ((b.bytes.enumFrom 0).filter
          (fun x => fs.all (fun f => f ⟨b.addr + x.1, x.2⟩))).map Prod.snd
      ∧ (∀ this, view_ptr.to_string ⟨this, w⟩ = .ret w.content)
      ∧ (∀ ps : List (char → Bool), fs = ps.map by_value →
          w.content = b.bytes.filter (fun c => ps.all (fun p => p c)))
      ∧ (fs = [] → w.content = b.bytes) := by
  have hc : (⟨some b, strlen b, compose_pred fs⟩ : filtered_string_view).content
      = ((b.bytes.enumFrom 0).filter
          (fun x => fs.all (fun f => f ⟨b.addr + x.1, x.2⟩))).map Prod.snd := by
    simp [filtered_string_view.content, filtered_string_view.accepted, accepted,
      strlen_zero_free b hz, compose_pred_eq_all]
  refine ⟨⟨some b, strlen b, compose_pred fs⟩, ?_, rfl, hc, ?_, ?_, ?_⟩
  · simp [compose, filtered_string_view.data, hd, filtered_string_view.of_c_str]
  · intro this
    exact to_string_zero_free ⟨this, ⟨some b, strlen b, compose_pred fs⟩⟩
      ⟨strlen_zero_free b hz, hz⟩
  · intro ps hps
    rw [hc, hps]
    have h := accepted_by_value (fun c => ps.all (fun p => p c)) b.addr 0 b.bytes
    rw [← h]
    simp only [accepted, by_value, all_by_value]
  · intro hfs
    rw [hc, hfs]
    simp [List.enumFrom_map_snd]

/-- Witness of C10: the test "compose function: fsv has custom predicate", on "CD / c++". -/
theorem compose_filters_whole_buffer_witness :
    (compose (filtered_string_view.of_string ⟨4096, [67, 68, 32, 47, 32, 99, 43, 43]⟩
          (by_value (fun c => decide (97 ≤ c ∧ c ≤ 122))))
        [by_value (fun c => c = 99 || c = 43 || c = 47),
          by_value (fun c => decide (32 < c))]).map filtered_string_view.content
      = .ret [47, 99, 43, 43] := by
  obtain ⟨w, h1, _, h3, _⟩ := compose_filters_whole_buffer
    (filtered_string_view.of_string ⟨4096, [67, 68, 32, 47, 32, 99, 43, 43]⟩
      (by_value (fun c => decide (97 ≤ c ∧ c ≤ 122))))
    ⟨4096, [67, 68, 32, 47, 32, 99, 43, 43]⟩
    [by_value (fun c => c = 99 || c = 43 || c = 47), by_value (fun c => decide (32 < c))]
    rfl (by decide)
  rw [h1, Exec.map_ret, h3]
  decide

/-- The early return of `split`: for a token with `size()` 0 the result is the one-element
vector that holds a copy of the view. -/
theorem split_of_empty_token (lit : Nat) (fsv tok : view_ptr) (h : tok.pointee.size = 0) :
    split lit fsv tok = .ret [fsv.pointee] := by
  simp [split, h]

/-- C13, at the failing input: for the view `v` over the `std::string` of the four bytes `a`,
zero, zero, `a` with the predicate that accepts `a`, and the default-constructed token,
`split` returns one element, a copy of `v`, but comparing a copy of `v` with `v` by `==`
has undefined behaviour: the iterators step over `end()`, which `operator[]` put right
after the first zero byte, and leave the buffer. -/
theorem split_empty_token_copy_eq_undefined :
    (filtered_string_view.default_).size = 0
      ∧ (split 32 ⟨64, filtered_string_view.of_string ⟨4096, [97, 0, 0, 97]⟩
            (by_value (fun c => c = 97))⟩
          ⟨128, filtered_string_view.default_⟩).map List.length = .ret 1
      ∧ (split 32 ⟨64, filtered_string_view.of_string ⟨4096, [97, 0, 0, 97]⟩
            (by_value (fun c => c = 97))⟩
          ⟨128, filtered_string_view.default_⟩).bind (fun l =>
            match l with
            | [piece] => view_eq ⟨192, piece⟩
                ⟨64, filtered_string_view.of_string ⟨4096, [97, 0, 0, 97]⟩
                  (by_value (fun c => c = 97))⟩
            | _ => .ret false) = .undefined := by
  decide

/-- C14, at the failing input: for "axab" split on "ab" (default predicates), the partial
match of the `a` at index 0 is abandoned at `x` without clearing `delim`, so the occurrence
at indices 2 and 3 is recorded with the stale start 0; the position list is 0, 0, 4, 4 and
`split` returns two empty pieces, which joined by "ab" give "ab", not "axab". -/
theorem split_after_abandoned_partial_match :
    (filtered_string_view.of_string ⟨4096, [97, 120, 97, 98]⟩ default_predicate).content
        = [97, 120, 97, 98]
      ∧ (filtered_string_view.of_string ⟨8192, [97, 98]⟩ default_predicate).content = [97, 98]
      ∧ find_delimiter_positions
          ⟨64, filtered_string_view.of_string ⟨4096, [97, 120, 97, 98]⟩ default_predicate⟩
          ⟨128, filtered_string_view.of_string ⟨8192, [97, 98]⟩ default_predicate⟩ [0]
        = .ret [0, 0, 4, 4]
      ∧ (split 32
          ⟨64, filtered_string_view.of_string ⟨4096, [97, 120, 97, 98]⟩ default_predicate⟩
          ⟨128, filtered_string_view.of_string ⟨8192, [97, 98]⟩ default_predicate⟩).map
            (fun l => l.map filtered_string_view.content)
        = .ret [[], []] := by
  decide

/-- C15, at the failing input: the token over the `std::string` of the two bytes zero, `x`
with the predicate that accepts `x` has the filtered content `x`, but its `begin()` points
at the zero byte, where `operator[]` stops; "x" split on it is never matched and comes
back as the one piece "x" instead of two empty pieces. -/
theorem split_token_behind_zero_byte :
    (filtered_string_view.of_string ⟨8192, [0, 120]⟩ (by_value (fun c => c = 120))).content
        = [120]
      ∧ (view_ptr.begin_ ⟨128, filtered_string_view.of_string ⟨8192, [0, 120]⟩
          (by_value (fun c => c = 120))⟩).bind iter.deref = .ret 0
      ∧ (split 32 ⟨64, filtered_string_view.of_string ⟨4096, [120]⟩ default_predicate⟩
          ⟨128, filtered_string_view.of_string ⟨8192, [0, 120]⟩
            (by_value (fun c => c = 120))⟩).map
            (fun l => l.map filtered_string_view.content)
        = .ret [[120]] := by
  decide

/-- C17, at the failing input: for the default-constructed view, `compose` hands the null
`data()` to the constructor that calls `strlen`, and `substr` reads through the null
`data_` in `operator[]`; both are undefined behaviour, whatever the list of predicates. -/
theorem compose_substr_of_default_undefined (fs : List filter) :
    compose filtered_string_view.default_ fs = .undefined
      ∧ substr filtered_string_view.default_ 0 0 = .undefined :=
  ⟨rfl, rfl⟩

/-- C18: the move constructor and, for distinct objects, the move assignment give the target
the buffer pointer, length and predicate that the source held, so its `data()` and `size()`
are the source's former ones, and leave the source in the state of a default-constructed
view: `data()` absent, `length_` 0, the accept-all predicate, `size()` 0. -/
theorem move_transfers_and_resets (m s : view_ptr) (h : m.address ≠ s.address) :
    s.pointee.move.1 = s.pointee ∧ s.pointee.move.2 = filtered_string_view.default_
      ∧ (move_assign m s).1 = s.pointee ∧ (move_assign m s).2 = filtered_string_view.default_
      ∧ s.pointee.move.1.data = s.pointee.data ∧ s.pointee.move.1.size = s.pointee.size
      ∧ (move_assign m s).1.data = s.pointee.data ∧ (move_assign m s).1.size = s.pointee.size
      ∧ filtered_string_view.default_.data = none
      ∧ filtered_string_view.default_.length_ = 0
      ∧ filtered_string_view.default_.predicate_ = default_predicate
      ∧ filtered_string_view.default_.size = 0 := by
  have h1 : s.pointee.move.1 = s.pointee := rfl
  have h2 : (move_assign m s).1 = s.pointee := by
    simp [move_assign, h, filtered_string_view.swap]
  have h3 : (move_assign m s).2 = filtered_string_view.default_ := by
    simp [move_assign, h, filtered_string_view.default_]
  exact ⟨h1, rfl, h2, h3, by rw [h1], by rw [h1], by rw [h2], by rw [h2], rfl, rfl, rfl, rfl⟩

/-- Witness of C18: the test "Move Assignment", "'89 baby" filtered to `8` and `9` moved into
the view over "hello". -/
theorem move_transfers_and_resets_witness :
    (move_assign ⟨128, filtered_string_view.of_string ⟨8192, [104, 101, 108, 108, 111]⟩
          default_predicate⟩
        ⟨64, filtered_string_view.of_string ⟨4096, [39, 56, 57, 32, 98, 97, 98, 121]⟩
          (by_value (fun c => c = 56 || c = 57))⟩).1.content = [56, 57]
      ∧ (move_assign ⟨128, filtered_string_view.of_string ⟨8192, [104, 101, 108, 108, 111]⟩
          default_predicate⟩
        ⟨64, filtered_string_view.of_string ⟨4096, [39, 56, 57, 32, 98, 97, 98, 121]⟩
          (by_value (fun c => c = 56 || c = 57))⟩).2.data = none := by
  obtain ⟨_, _, h3, h4, _⟩ := move_transfers_and_resets
    ⟨128, filtered_string_view.of_string ⟨8192, [104, 101, 108, 108, 111]⟩ default_predicate⟩
    ⟨64, filtered_string_view.of_string ⟨4096, [39, 56, 57, 32, 98, 97, 98, 121]⟩
      (by_value (fun c => c = 56 || c = 57))⟩ (by decide)
  rw [h3, h4]
  decide

/-- The copy constructor and the copy assignment give the target the members of the source
and leave the source as it was. -/
theorem copy_is_memberwise (w v : view_ptr) :
    v.pointee.copy = v.pointee ∧ (copy_assign w v).2 = v.pointee
      ∧ (w.address ≠ v.address → (copy_assign w v).1 = v.pointee)
      ∧ (w.address = v.address → (copy_assign w v).1 = w.pointee) := by
  refine ⟨rfl, ?_, ?_, ?_⟩
  · unfold copy_assign; split_ifs <;> rfl
  · intro h; simp [copy_assign, h, filtered_string_view.swap, filtered_string_view.copy]
  · intro h; simp [copy_assign, h]

/-- C19, at the failing input: the copy of the view over the `std::string` of the four bytes
`a`, zero, zero, `a` with the predicate that accepts `a` has the members of the original,
but comparing it with the original by `==` has undefined behaviour, as has comparing the
target of the copy assignment. -/
theorem copy_eq_undefined :
    (filtered_string_view.of_string ⟨4096, [97, 0, 0, 97]⟩ (by_value (fun c => c = 97))).copy.data
        = (filtered_string_view.of_string ⟨4096, [97, 0, 0, 97]⟩
            (by_value (fun c => c = 97))).data
      ∧ (filtered_string_view.of_string ⟨4096, [97, 0, 0, 97]⟩
            (by_value (fun c => c = 97))).copy.size = 2
      ∧ view_eq ⟨128, (filtered_string_view.of_string ⟨4096, [97, 0, 0, 97]⟩
            (by_value (fun c => c = 97))).copy⟩
          ⟨64, filtered_string_view.of_string ⟨4096, [97, 0, 0, 97]⟩
            (by_value (fun c => c = 97))⟩ = .undefined
      ∧ view_eq ⟨128, (copy_assign ⟨128, filtered_string_view.default_⟩
            ⟨64, filtered_string_view.of_string ⟨4096, [97, 0, 0, 97]⟩
              (by_value (fun c => c = 97))⟩).1⟩
          ⟨64, filtered_string_view.of_string ⟨4096, [97, 0, 0, 97]⟩
            (by_value (fun c => c = 97))⟩ = .undefined := by
  decide

/-! ## substr on a view without zero bytes -/

theorem getD_property {α : Type} (P : α → Prop) (A : List α) (d : α) (j : Nat)
    (hA : ∀ x ∈ A, P x) (hd : P d) : P (A.getD j d) := by
  by_cases hj : j < A.length
  · rw [List.getD_eq_getElem _ _ hj]
    exact hA _ (List.getElem_mem hj)
  · rw [List.getD_eq_default _ _ (Nat.le_of_not_lt hj)]
    exact hd

theorem getD_drop {α : Type} (A : List α) (d : α) (i k : Nat) :
    (A.drop i).getD k d = A.getD (i + k) d := by
  simp [List.getD_eq_getElem?_getD, List.getElem?_drop]

theorem filter_le_sorted (A : List (Nat × char)) (L : Nat)
    (hs : A.Pairwise (fun x y => x.1 < y.1)) (hL : ∀ x ∈ A, x.1 < L) (j : Nat) :
    A.filter (fun x => decide (x.1 ≤ (A.getD j (L, 0)).1)) = A.take (j + 1) := by
  induction A generalizing j with
  | nil => simp
  | cons a A ih =>
    rw [List.pairwise_cons] at hs
    have hL' : ∀ x ∈ A, x.1 < L := fun x hx => hL x (List.mem_cons_of_mem _ hx)
    cases j with
    | zero =>
      have hnil : A.filter (fun x => decide (x.1 ≤ a.1)) = [] := by
        rw [List.filter_eq_nil_iff]
        intro x hx
        have := hs.1 x hx
        simp only [decide_eq_true_eq]
        omega
      simp [List.filter_cons, hnil]
    | succ j =>
      have hlt : a.1 < (A.getD j (L, 0)).1 :=
        getD_property (fun x => a.1 < x.1) A (L, 0) j hs.1 (hL a (List.mem_cons_self _ _))
      rw [List.getD_cons_succ, List.filter_cons, if_pos (by simpa using Nat.le_of_lt hlt),
        ih hs.2 hL' j, List.take_succ_cons]

theorem filter_ge_sorted (A : List (Nat × char)) (L : Nat)
    (hs : A.Pairwise (fun x y => x.1 < y.1)) (hL : ∀ x ∈ A, x.1 < L) (i : Nat) :
    A.filter (fun x => decide ((A.getD i (L, 0)).1 ≤ x.1)) = A.drop i := by
  induction A generalizing i with
  | nil => simp
  | cons a A ih =>
    rw [List.pairwise_cons] at hs
    have hL' : ∀ x ∈ A, x.1 < L := fun x hx => hL x (List.mem_cons_of_mem _ hx)
    cases i with
    | zero =>
      have hall : A.filter (fun x => decide (a.1 ≤ x.1)) = A := by
        rw [List.filter_eq_self]
        intro x hx
        have := hs.1 x hx
        simp only [decide_eq_true_eq]
        omega
      simp [List.filter_cons, hall]
    | succ i =>
      have hlt : a.1 < (A.getD i (L, 0)).1 :=
        getD_property (fun x => a.1 < x.1) A (L, 0) i hs.1 (hL a (List.mem_cons_self _ _))
      rw [List.getD_cons_succ, List.filter_cons, if_neg (by simpa using hlt),
        ih hs.2 hL' i, List.drop_succ_cons]

theorem filter_range_sorted (A : List (Nat × char)) (L : Nat)
    (hs : A.Pairwise (fun x y => x.1 < y.1)) (hL : ∀ x ∈ A, x.1 < L) (i n : Nat) :
    A.filter (fun x => decide ((A.getD i (L, 0)).1 ≤ x.1)
        && decide (x.1 ≤ (A.getD (i + n) (L, 0)).1)) = (A.drop i).take (n + 1) := by
  have h1 := filter_ge_sorted A L hs hL i
  have h2 := filter_le_sorted (A.drop i) L (hs.sublist (List.drop_sublist i A))
    (fun x hx => hL x (List.mem_of_mem_drop hx)) n
  rw [getD_drop] at h2
  have h3 : (A.filter (fun x => decide ((A.getD i (L, 0)).1 ≤ x.1))).filter
      (fun x => decide (x.1 ≤ (A.getD (i + n) (L, 0)).1)) = (A.drop i).take (n + 1) := by
    rw [h1]; exact h2
  rw [List.filter_filter] at h3
  rw [← h3]
  apply List.filter_congr
  intro x _
  rw [Bool.and_comm]

theorem accepted_lt (p : filter) (base off : Nat) (cs : List char) :
    ∀ x ∈ accepted p base off cs, x.1 < off + cs.length := fun _ hx =>
  List.fst_lt_add_of_mem_enumFrom (List.mem_filter.mp hx).1

theorem accepted_substr_pred (v : filtered_string_view) (rcount : Int) (b : Buffer)
    (lo hi off : Nat) (cs : List char) :
    accepted (substr_pred v rcount ⟨b, lo⟩ ⟨b, hi⟩) b.addr off cs
      = (accepted v.predicate_ b.addr off cs).filter
          (fun x => decide (rcount ≠ 0) && (decide (lo ≤ x.1) && decide (x.1 ≤ hi))) := by
  unfold accepted
  rw [List.filter_filter]
  apply List.filter_congr
  intro x _
  simp only [substr_pred, char_ptr.address, filtered_string_view.predicate,
    Nat.add_le_add_iff_left, Bool.and_assoc]

theorem subscript_zero_free_nat {v : filtered_string_view} {b : Buffer} (hd : v.data_ = some b)
    (hz : v.zero_free) (k : Nat) :
    v.subscript (k : Int) = .ret ⟨b, (v.accepted.getD k (b.bytes.length, 0)).1⟩ := by
  have h := subscript_loop_zero_free v.predicate_ b.addr b.bytes 0 0 k (zero_free_bytes hd hz)
  simp only [Nat.cast_zero, zero_add] at h
  simp only [filtered_string_view.subscript, hd, Buffer.storage, h, Exec.map_ret,
    zero_free_accepted hd hz]

theorem int_add_ret (a b : Int)
    (h : is_int a = true → is_int b = true → is_int (a + b) = true) :
    int_add a b = .ret (a + b) := by
  unfold int_add
  cases ha : is_int a <;> cases hb : is_int b <;> simp_all

theorem int_sub_ret (a b : Int)
    (h : is_int a = true → is_int b = true → is_int (a - b) = true) :
    int_sub a b = .ret (a - b) := by
  unfold int_sub
  cases ha : is_int a <;> cases hb : is_int b <;> simp_all

theorem is_int_iff (x : Int) : is_int x = true ↔ -2147483648 ≤ x ∧ x ≤ 2147483647 := by
  simp [is_int, INT_MIN, INT_MAX]

/-- Where none of the three `int` computations of `substr` overflows, `substr` is the view
built from `&fsv[pos]` and `&fsv[pos + rcount - 1]`. -/
theorem substr_of_no_overflow (v : filtered_string_view) (pos count : Int)
    (h1 : count ≤ 0 → int_sub (v.size : Int) pos = .ret ((v.size : Int) - pos))
    (h2 : int_add pos (if count ≤ 0 then (v.size : Int) - pos else count)
      = .ret (pos + (if count ≤ 0 then (v.size : Int) - pos else count)))
    (h3 : int_sub (pos + (if count ≤ 0 then (v.size : Int) - pos else count)) 1
      = .ret (pos + (if count ≤ 0 then (v.size : Int) - pos else count) - 1)) :
    substr v pos count = (v.subscript pos).bind (fun start =>
      (v.subscript
          (pos + (if count ≤ 0 then (v.size : Int) - pos else count) - 1)).bind (fun end_ =>
        filtered_string_view.of_c_str v.data
          (substr_pred v (if count ≤ 0 then (v.size : Int) - pos else count) start end_))) := by
  unfold substr
  by_cases hc : count ≤ 0
  · simp only [hc, if_true] at h2 h3 ⊢
    rw [h1 hc, Exec.bind_ret]
    cases hs : v.subscript pos with
    | ret start => simp only [Exec.bind_ret, h2, h3]
    | undefined => rfl
    | out_of_fuel => rfl
  · simp only [hc, if_false] at h2 h3 ⊢
    rw [Exec.bind_ret]
    cases hs : v.subscript pos with
    | ret start => simp only [Exec.bind_ret, h2, h3]
    | undefined => rfl
    | out_of_fuel => rfl

/-- For a position `0 <= pos <= size()` and a count whose sum with `pos` does not overflow,
the `int` computations of `substr` give their mathematical values. -/
theorem substr_arith_ok (size pos : Nat) (hpos : pos ≤ size) (count : Int)
    (hov : (pos : Int) + (if 0 < count then count else (size : Int) - pos) ≤ INT_MAX) :
    (count ≤ 0 → int_sub (size : Int) pos = .ret ((size : Int) - pos))
      ∧ int_add pos (if count ≤ 0 then (size : Int) - pos else count)
        = .ret (pos + (if count ≤ 0 then (size : Int) - pos else count))
      ∧ int_sub (pos + (if count ≤ 0 then (size : Int) - pos else count)) 1
        = .ret (pos + (if count ≤ 0 then (size : Int) - pos else count) - 1) := by
  unfold INT_MAX at hov
  refine ⟨fun _ => int_sub_ret _ _ ?_, int_add_ret _ _ ?_, int_sub_ret _ _ ?_⟩
  · simp only [is_int_iff]; omega
  · simp only [is_int_iff]; split_ifs at hov ⊢ <;> omega
  · simp only [is_int_iff]; split_ifs at hov ⊢ <;> omega

/-- For an `int` position and a count such that neither `rcount` nor `pos + rcount` is
above `INT_MAX`, the `int` computations of `substr` give their mathematical values. -/
theorem substr_arith_int (size : Nat) (pos count : Int) (hp : is_int pos = true)
    (hn : (if count ≤ 0 then (size : Int) - pos else count) ≤ INT_MAX)
    (hs : pos + (if count ≤ 0 then (size : Int) - pos else count) ≤ INT_MAX) :
    (count ≤ 0 → int_sub (size : Int) pos = .ret ((size : Int) - pos))
      ∧ int_add pos (if count ≤ 0 then (size : Int) - pos else count)
        = .ret (pos + (if count ≤ 0 then (size : Int) - pos else count))
      ∧ int_sub (pos + (if count ≤ 0 then (size : Int) - pos else count)) 1
        = .ret (pos + (if count ≤ 0 then (size : Int) - pos else count) - 1) := by
  unfold INT_MAX at hn hs
  rw [is_int_iff] at hp
  refine ⟨fun hc => int_sub_ret _ _ ?_, int_add_ret _ _ ?_, int_sub_ret _ _ ?_⟩
  · simp only [is_int_iff]; rw [if_pos hc] at hn; omega
  · simp only [is_int_iff]; split_ifs at hn hs ⊢ <;> omega
  · simp only [is_int_iff]; split_ifs at hn hs ⊢ <;> omega

/-- For the whole view, `substr(v, 0, size(v))`, no `int` computation overflows. -/
theorem substr_arith_whole (size : Nat) :
    ((size : Int) ≤ 0 → int_sub (size : Int) ((0 : Nat) : Int)
        = .ret ((size : Int) - ((0 : Nat) : Int)))
      ∧ int_add ((0 : Nat) : Int)
          (if (size : Int) ≤ 0 then (size : Int) - ((0 : Nat) : Int) else (size : Int))
        = .ret (((0 : Nat) : Int)
          + (if (size : Int) ≤ 0 then (size : Int) - ((0 : Nat) : Int) else (size : Int)))
      ∧ int_sub (((0 : Nat) : Int)
          + (if (size : Int) ≤ 0 then (size : Int) - ((0 : Nat) : Int) else (size : Int))) 1
        = .ret (((0 : Nat) : Int)
          + (if (size : Int) ≤ 0 then (size : Int) - ((0 : Nat) : Int) else (size : Int)) - 1) := by
  refine ⟨fun _ => int_sub_ret _ _ ?_, int_add_ret _ _ ?_, int_sub_ret _ _ ?_⟩
  · simp only [is_int_iff]; omega
  · simp only [is_int_iff]; split_ifs <;> omega
  · simp only [is_int_iff]; split_ifs <;> omega

/-- The view that `substr` returns on a view without zero bytes, for a position that is at
most `size()` and where no `int` computation overflows: it is over the same buffer,
without zero bytes again, and its accepted characters are those of ranks `pos` to
`pos + n - 1` of the view. -/
theorem substr_zero_free (v : filtered_string_view) (b : Buffer) (hd : v.data_ = some b)
    (hz : v.zero_free) (pos : Nat) (hpos : pos ≤ v.size) (count : Int)
    (harith : (count ≤ 0 → int_sub (v.size : Int) pos = .ret ((v.size : Int) - pos))
      ∧ int_add pos (if count ≤ 0 then (v.size : Int) - pos else count)
        = .ret (pos + (if count ≤ 0 then (v.size : Int) - pos else count))
      ∧ int_sub (pos + (if count ≤ 0 then (v.size : Int) - pos else count)) 1
        = .ret (pos + (if count ≤ 0 then (v.size : Int) - pos else count) - 1)) :
    ∃ w, substr v pos count = .ret w ∧ w.data_ = some b ∧ w.zero_free
      ∧ w.accepted = (v.accepted.drop pos).take
          (if 0 < count then count.toNat else v.size - pos) := by
  have hb := zero_free_bytes hd hz
  have hacc := zero_free_accepted hd hz
  have hsize := zero_free_size v hz
  obtain ⟨hi, hhi, _⟩ := subscript_total hd
    ((pos : Int) + (if count ≤ 0 then (v.size : Int) - pos else count) - 1)
  have hzw : (⟨some b, strlen b, substr_pred v
      (if count ≤ 0 then (v.size : Int) - pos else count)
      ⟨b, (v.accepted.getD pos (b.bytes.length, 0)).1⟩ ⟨b, hi⟩⟩ :
        filtered_string_view).zero_free := ⟨strlen_zero_free b hb, hb⟩
  refine ⟨_, ?_, rfl, hzw, ?_⟩
  · rw [substr_of_no_overflow v pos count harith.1 harith.2.1 harith.2.2]
    simp [subscript_zero_free_nat hd hz pos, hhi, filtered_string_view.data, hd,
      filtered_string_view.of_c_str]
  · rw [zero_free_accepted rfl hzw, accepted_substr_pred, ← hacc]
    by_cases hrc : (if count ≤ 0 then (v.size : Int) - pos else count) = 0
    · have hn : (if 0 < count then count.toNat else v.size - pos) = 0 := by
        split_ifs at hrc ⊢ <;> omega
      simp [hrc, hn]
    · have hn : ∃ n, (if 0 < count then count.toNat else v.size - pos) = n + 1
          ∧ (pos : Int) + (if count ≤ 0 then (v.size : Int) - pos else count) - 1
            = ((pos + n : Nat) : Int) := by
        refine ⟨(if 0 < count then count.toNat else v.size - pos) - 1, ?_, ?_⟩
        · split_ifs at hrc ⊢ <;> omega
        · split_ifs at hrc ⊢ <;> omega
      obtain ⟨n, hn1, hn2⟩ := hn
      rw [hn2, subscript_zero_free_nat hd hz (pos + n)] at hhi
      have hhi' : hi = (v.accepted.getD (pos + n) (b.bytes.length, 0)).1 := by
        have := Exec.ret.inj hhi
        exact (congrArg char_ptr.off this).symm
      have hsorted : v.accepted.Pairwise (fun x y => x.1 < y.1) := by
        rw [hacc]; exact accepted_pairwise _ _ _ _
      have hlt : ∀ x ∈ v.accepted, x.1 < b.bytes.length := by
        rw [hacc]
        intro x hx
        simpa using accepted_lt _ _ _ _ x hx
      rw [hn1, hhi', ← filter_range_sorted v.accepted b.bytes.length hsorted hlt pos n]
      apply List.filter_congr
      intro x _
      simp [hrc]

theorem lex_compare_self (s : List char) : lex_compare s s = .equal := by
  induction s with
  | nil => rfl
  | cons x s ih => simp [lex_compare, ih]

/-- On views without zero bytes `==` compares the filtered contents, apart from the pairs
that the test at its head sets aside. -/
theorem view_eq_zero_free (a b : view_ptr) (ha : a.pointee.zero_free) (hb : b.pointee.zero_free)
    (hg : null_vs_empty a.pointee b.pointee = false)
    (hc : a.pointee.content = b.pointee.content) : view_eq a b = .ret true := by
  simp [view_eq, hg, three_way_zero_free a b ha hb, hc, lex_compare_self]

/-- The claim C11 as first stated fails: on the view over "ab", of size 2 and without
zero bytes, `substr(v, 1, INT_MAX)` computes `1 + INT_MAX` in `int`, which overflows, so
the call has undefined behaviour and returns no view. With a count of one less the call
returns the rest "b". -/
theorem substr_count_overflow :
    (filtered_string_view.of_string ⟨4096, [97, 98]⟩ default_predicate).zero_free
      ∧ (filtered_string_view.of_string ⟨4096, [97, 98]⟩ default_predicate).size = 2
      ∧ substr (filtered_string_view.of_string ⟨4096, [97, 98]⟩ default_predicate)
          1 2147483647 = .undefined
      ∧ (substr (filtered_string_view.of_string ⟨4096, [97, 98]⟩ default_predicate)
          1 2147483646).map filtered_string_view.content = .ret [98] :=
  ⟨⟨rfl, by decide⟩, by decide, rfl, by decide⟩

/-- C11, amended: for a view `v` over a present buffer without zero bytes, a position `pos`
with `0 <= pos <= size()` and a `count` for which `pos + n` is at most `INT_MAX`, where
`n = count` for a positive `count` and `n = size() - pos` otherwise, `substr(v, pos, count)`
returns a view over the same buffer whose filtered content is that of `v` from filtered
index `pos` on, cut to `n` bytes where that many are left; so a `count` that is zero,
negative or reaches past the end gives the whole rest from `pos`. -/
theorem substr_is_slice (v : filtered_string_view) (b : Buffer) (hd : v.data_ = some b)
    (hz : v.zero_free) (pos : Nat) (hpos : pos ≤ v.size) (count : Int)
    (hov : (pos : Int) + (if 0 < count then count else (v.size : Int) - pos) ≤ INT_MAX) :
    ∃ w, substr v pos count = .ret w ∧ w.data_ = v.data_
      ∧ w.content = (v.content.drop pos).take
          (if 0 < count then count.toNat else v.size - pos)
      ∧ (count ≤ 0 ∨ (v.size : Int) ≤ pos + count → w.content = v.content.drop pos) := by
  obtain ⟨w, h1, h2, _, h4⟩ := substr_zero_free v b hd hz pos hpos count
    (substr_arith_ok v.size pos hpos count hov)
  have hc : w.content = (v.content.drop pos).take
      (if 0 < count then count.toNat else v.size - pos) := by
    simp only [filtered_string_view.content, h4, List.map_take, List.map_drop]
  refine ⟨w, h1, by rw [h2, hd], hc, ?_⟩
  intro hcount
  rw [hc]
  apply List.take_of_length_le
  have hlen : v.content.length = v.size := by
    rw [zero_free_size v hz]; simp [filtered_string_view.content]
  rw [List.length_drop, hlen]
  split_ifs <;> omega

/-- Witness of C11: the test on "Sled Dog Do No Wrong" filtered to its upper-case letters,
`substr(sv1, 1, 2)` is "DD". -/
theorem substr_is_slice_witness :
    (substr (filtered_string_view.of_string
        ⟨4096, [83, 108, 101, 100, 32, 68, 111, 103, 32, 68, 111, 32, 78, 111, 32, 87, 114,
          111, 110, 103]⟩ (by_value (fun c => decide (65 ≤ c ∧ c ≤ 90)))) 1 2).map
        filtered_string_view.content = .ret [68, 68] := by
  obtain ⟨w, h1, _, h3, _⟩ := substr_is_slice
    (filtered_string_view.of_string
      ⟨4096, [83, 108, 101, 100, 32, 68, 111, 103, 32, 68, 111, 32, 78, 111, 32, 87, 114,
        111, 110, 103]⟩ (by_value (fun c => decide (65 ≤ c ∧ c ≤ 90))))
    ⟨4096, [83, 108, 101, 100, 32, 68, 111, 103, 32, 68, 111, 32, 78, 111, 32, 87, 114,
      111, 110, 103]⟩ rfl ⟨rfl, by decide⟩ 1 (by decide) 2 (by decide)
  rw [show ((1 : Nat) : Int) = 1 from rfl] at h1
  rw [h1, Exec.map_ret, h3]
  decide

/-- On a view without zero bytes `substr(v, 0, size(v))` returns a view that compares `==`
to `v`. -/
theorem substr_whole_view_eq (wa va : Nat) (v : filtered_string_view) (b : Buffer)
    (hd : v.data_ = some b) (hz : v.zero_free) :
    ∃ w, substr v 0 (v.size : Int) = .ret w ∧ view_eq ⟨wa, w⟩ ⟨va, v⟩ = .ret true := by
  obtain ⟨w, h1, h2, h3, h4⟩ := substr_zero_free v b hd hz 0 (Nat.zero_le _) (v.size : Int)
    (substr_arith_whole v.size)
  refine ⟨w, by simpa using h1, ?_⟩
  have hacc : w.accepted = v.accepted := by
    rw [h4, List.drop_zero]
    apply List.take_of_length_le
    rw [zero_free_size v hz]
    split_ifs <;> omega
  apply view_eq_zero_free _ _ h3 hz
  · simp [null_vs_empty, h2, hd]
  · simp [filtered_string_view.content, hacc]

/-- C12: for a view `v` over a present buffer without zero bytes, also one with `size()` 0,
`substr(v, 0, size(v))` returns a view that compares `==` to `v`. -/
theorem substr_whole_eq (wa va : Nat) (v : filtered_string_view) (b : Buffer)
    (hd : v.data_ = some b) (hz : v.zero_free) :
    ∃ w, substr v 0 (v.size : Int) = .ret w ∧ view_eq ⟨wa, w⟩ ⟨va, v⟩ = .ret true :=
  substr_whole_view_eq wa va v b hd hz

/-- Witness of C12: the test "substr function returns entire string view", on "adam". -/
theorem substr_whole_eq_witness :
    (substr (filtered_string_view.of_string ⟨4096, [97, 100, 97, 109]⟩ default_predicate)
        0 4).bind (fun w => view_eq ⟨128, w⟩
          ⟨64, filtered_string_view.of_string ⟨4096, [97, 100, 97, 109]⟩ default_predicate⟩)
      = .ret true := by
  obtain ⟨w, h1, h2⟩ := substr_whole_eq 128 64
    (filtered_string_view.of_string ⟨4096, [97, 100, 97, 109]⟩ default_predicate)
    ⟨4096, [97, 100, 97, 109]⟩ rfl ⟨rfl, by decide⟩
  have hs : ((filtered_string_view.of_string ⟨4096, [97, 100, 97, 109]⟩
      default_predicate).size : Int) = 4 := by decide
  rw [hs] at h1
  rw [h1, Exec.bind_ret, h2]

/-! ## Backward iteration over a view without zero bytes -/

theorem mem_accepted_iff (p : filter) (base off : Nat) (cs : List char) (x : Nat × char) :
    x ∈ accepted p base off cs
      ↔ off ≤ x.1 ∧ cs[x.1 - off]? = some x.2 ∧ p ⟨base + x.1, x.2⟩ = true := by
  obtain ⟨i, c⟩ := x
  simp only [accepted, List.mem_filter, List.mk_mem_enumFrom_iff_le_and_getElem?_sub, and_assoc]

theorem getD_default_irrelevant {α : Type} (A : List α) (d d' : α) (k : Nat)
    (hk : k < A.length) : A.getD k d = A.getD k d' := by
  rw [List.getD_eq_getElem _ _ hk, List.getD_eq_getElem _ _ hk]

theorem accepted_getD_strict_mono (p : filter) (base off : Nat) (cs : List char) (k j : Nat)
    (hkj : k < j) (hj : j < (accepted p base off cs).length) :
    ((accepted p base off cs).getD k (0, 0)).1 < ((accepted p base off cs).getD j (0, 0)).1 := by
  rw [List.getD_eq_getElem _ _ hj, List.getD_eq_getElem _ _ (by omega)]
  exact List.pairwise_iff_getElem.mp (accepted_pairwise p base off cs) k j (by omega) hj hkj

theorem accepted_getD_accepts (p : filter) (base off : Nat) (cs : List char) (k : Nat)
    (hk : k < (accepted p base off cs).length) :
    p ⟨base + ((accepted p base off cs).getD k (0, 0)).1,
      ((accepted p base off cs).getD k (0, 0)).2⟩ = true := by
  have hmem : (accepted p base off cs).getD k (0, 0) ∈ accepted p base off cs := by
    rw [List.getD_eq_getElem _ _ hk]
    exact List.getElem_mem hk
  exact ((mem_accepted_iff p base off cs _).mp hmem).2.2

theorem rejected_between (p : filter) (b : Buffer) (k x : Nat) (c : char)
    (hk : k < (accepted p b.addr 0 b.bytes).length)
    (hx1 : ((accepted p b.addr 0 b.bytes).getD k (0, 0)).1 < x)
    (hx2 : x < ((accepted p b.addr 0 b.bytes).getD (k + 1) (b.bytes.length, 0)).1)
    (hc : b.bytes[x]? = some c) : p ⟨b.addr + x, c⟩ = false := by
  by_contra hp
  have hp' : p ⟨b.addr + x, c⟩ = true := by simpa using hp
  have hmem : (x, c) ∈ accepted p b.addr 0 b.bytes :=
    (mem_accepted_iff p b.addr 0 b.bytes (x, c)).mpr ⟨Nat.zero_le _, by simpa using hc, hp'⟩
  obtain ⟨i, hi, hget⟩ := List.getElem_of_mem hmem
  have hgi : (accepted p b.addr 0 b.bytes).getD i (0, 0) = (x, c) := by
    rw [List.getD_eq_getElem _ _ hi, hget]
  by_cases hik : i ≤ k
  · have := accepted_getD_mono p b.addr 0 b.bytes i k hik hk
    rw [hgi] at this
    simp only at this
    omega
  · have hk1 : k + 1 < (accepted p b.addr 0 b.bytes).length := by omega
    have := accepted_getD_mono p b.addr 0 b.bytes (k + 1) i (by omega) hi
    rw [hgi, getD_default_irrelevant _ (0, 0) (b.bytes.length, 0) (k + 1) hk1] at this
    simp only at this
    omega

theorem skip_rejected_back_accepted (p : filter) (b : Buffer) (k x : Nat)
    (hk : k < (accepted p b.addr 0 b.bytes).length)
    (hx1 : ((accepted p b.addr 0 b.bytes).getD k (0, 0)).1 ≤ x)
    (hx2 : x < ((accepted p b.addr 0 b.bytes).getD (k + 1) (b.bytes.length, 0)).1) :
    skip_rejected_back p b x = .ret ((accepted p b.addr 0 b.bytes).getD k (0, 0)).1 := by
  have hread := accepted_getD_read p b.addr 0 b.bytes [0] k hk
  have hacc := accepted_getD_accepts p b.addr 0 b.bytes k hk
  have hnext : ((accepted p b.addr 0 b.bytes).getD (k + 1) (b.bytes.length, 0)).1
      ≤ b.bytes.length :=
    getD_property (fun y : Nat × char => y.1 ≤ b.bytes.length) _ _ _
      (fun y hy => by have := accepted_lt p b.addr 0 b.bytes y hy; omega) le_rfl
  simp only [Nat.sub_zero] at hread
  induction x with
  | zero =>
    have h0 : ((accepted p b.addr 0 b.bytes).getD k (0, 0)).1 = 0 := by omega
    rw [h0] at hread hacc
    rw [skip_rejected_back, Buffer.storage, hread]
    simp only [hacc, if_true]
    rw [h0]
  | succ x ih =>
    by_cases heq : ((accepted p b.addr 0 b.bytes).getD k (0, 0)).1 = x + 1
    · rw [heq] at hread hacc
      rw [skip_rejected_back, Buffer.storage, hread]
      simp only [hacc, if_true]
      rw [heq]
    · have hlt : x + 1 < b.bytes.length := by omega
      have hget : (b.bytes ++ [0]).get? (x + 1) = some b.bytes[x + 1] := by
        rw [List.get?_eq_getElem?, List.getElem?_append_left hlt, List.getElem?_eq_getElem hlt]
      have hrej := rejected_between p b k (x + 1) b.bytes[x + 1] hk (by omega) hx2
        (List.getElem?_eq_getElem hlt)
      rw [skip_rejected_back, Buffer.storage, hget]
      simp only [hrej, if_false, Bool.false_eq_true]
      exact ih (by omega) (by omega)

theorem accepted_sorted_view (v : filtered_string_view) :
    v.accepted.Pairwise (fun x y => x.1 < y.1) := by
  unfold filtered_string_view.accepted
  cases v.data_ with
  | none => exact List.Pairwise.nil
  | some b => exact accepted_pairwise _ _ _ _

theorem pos_strict_mono (v : filtered_string_view) (j k : Nat) (hjk : j < k)
    (hk : k ≤ v.accepted.length) : v.pos j < v.pos k := by
  have hs := accepted_sorted_view v
  unfold filtered_string_view.pos
  rw [if_pos (by omega)]
  by_cases hkm : k < v.accepted.length
  · rw [if_pos hkm, List.getD_eq_getElem _ _ hkm, List.getD_eq_getElem _ _ (by omega)]
    exact List.pairwise_iff_getElem.mp hs j k (by omega) hkm hjk
  · rw [if_neg hkm]
    have hm : v.accepted.length - 1 < v.accepted.length := by omega
    rw [List.getD_eq_getElem _ _ hm, List.getD_eq_getElem _ _ (by omega)]
    rcases Nat.eq_or_lt_of_le (show j ≤ v.accepted.length - 1 by omega) with h | h
    · simp only [h]; omega
    · have := List.pairwise_iff_getElem.mp hs j (v.accepted.length - 1) (by omega) hm h
      omega

theorem iter_eq_nth (this : view_ptr) (j k : Nat) (hj : j ≤ this.pointee.accepted.length)
    (hk : k ≤ this.pointee.accepted.length) :
    iter.eq (this.nth_iter j) (this.nth_iter k) = decide (j = k) := by
  unfold view_ptr.nth_iter
  cases hd : this.pointee.data_ with
  | none =>
    have h0 : this.pointee.accepted.length = 0 := by simp [accepted_none hd]
    have hj0 : j = 0 := by omega
    have hk0 : k = 0 := by omega
    simp [iter.eq, same_range, ptr_eq, hj0, hk0]
  | some b =>
    by_cases hm : this.pointee.accepted.length = 0
    · have hj0 : j = 0 := by omega
      have hk0 : k = 0 := by omega
      simp [iter.eq, same_range, ptr_eq, hm, hj0, hk0]
    · simp only [hm, if_false, iter.eq, same_range, ptr_eq, beq_self_eq_true, Bool.and_self,
        Bool.true_and, Option.map_some', char_ptr.address]
      rcases Nat.lt_trichotomy j k with h | h | h
      · have := pos_strict_mono this.pointee j k h hk
        have hne : ¬ j = k := by omega
        simp only [hne, decide_False, beq_eq_false_iff_ne, ne_eq, Option.some.injEq]
        omega
      · simp [h]
      · have := pos_strict_mono this.pointee k j h hj
        have hne : ¬ j = k := by omega
        simp only [hne, decide_False, beq_eq_false_iff_ne, ne_eq, Option.some.injEq]
        omega

theorem decr_zero_free (this : view_ptr) (hz : this.pointee.zero_free) (k : Nat)
    (hk : k < this.pointee.accepted.length) :
    (this.nth_iter (k + 1)).decr = .ret (this.nth_iter k) := by
  have hpos := pos_strict_mono this.pointee k (k + 1) (by omega) (by omega)
  unfold view_ptr.nth_iter
  cases hd : this.pointee.data_ with
  | none => simp [accepted_none hd] at hk
  | some b =>
    have hm : ¬ this.pointee.accepted.length = 0 := by omega
    have hacc := zero_free_accepted hd hz
    have hnz : ¬ this.pointee.pos (k + 1) = 0 := by omega
    have hback : skip_rejected_back this.pointee.predicate_ b (this.pointee.pos (k + 1) - 1)
        = .ret (this.pointee.pos k) := by
      have hk' : k < (accepted this.pointee.predicate_ b.addr 0 b.bytes).length := by
        rw [← hacc]; exact hk
      have h := skip_rejected_back_accepted this.pointee.predicate_ b k
        (this.pointee.pos (k + 1) - 1) hk'
      rw [← hacc] at h
      have hpk : this.pointee.pos k = (this.pointee.accepted.getD k (0, 0)).1 := by
        simp [filtered_string_view.pos, hk]
      rw [← hpk] at h
      apply h
      · omega
      · by_cases hk1 : k + 1 < this.pointee.accepted.length
        · have hp1 : this.pointee.pos (k + 1)
              = (this.pointee.accepted.getD (k + 1) (b.bytes.length, 0)).1 := by
            simp only [filtered_string_view.pos, hk1, if_true]
            rw [getD_default_irrelevant _ (0, 0) (b.bytes.length, 0) (k + 1) hk1]
          omega
        · have hlast : k = this.pointee.accepted.length - 1 := by omega
          have hp1 : this.pointee.pos (k + 1) = this.pointee.pos k + 1 := by
            simp only [filtered_string_view.pos, hk1, hk, if_true, if_false]
            rw [← hlast]
          rw [List.getD_eq_default _ _ (by omega)]
          have hlt := accepted_lt this.pointee.predicate_ b.addr 0 b.bytes
            (this.pointee.accepted.getD k (0, 0))
            (by rw [← hacc, List.getD_eq_getElem _ _ hk]; exact List.getElem_mem hk)
          simp only [zero_add] at hlt
          omega
    simp only [hm, if_false, iter.decr, hnz, hback, Exec.map_ret, Nat.add_sub_cancel]

theorem content_take_succ (v : filtered_string_view) (k : Nat) (hk : k < v.accepted.length) :
    v.content.take (k + 1) = v.content.take k ++ [(v.accepted.getD k (0, 0)).2] := by
  have hk' : k < v.content.length := by simpa [filtered_string_view.content] using hk
  rw [List.take_succ, List.getElem?_eq_getElem hk', List.getD_eq_getElem _ _ hk]
  simp [filtered_string_view.content]

theorem backward_walk_loop_zero_free (this : view_ptr) (hz : this.pointee.zero_free)
    (k fuel : Nat) (visited : List char)
    (hk : k ≤ this.pointee.accepted.length) (hf : k < fuel) :
    backward_walk_loop (this.nth_iter 0) fuel (this.nth_iter k) visited
      = .ret (visited ++ (this.pointee.content.take k).reverse) := by
  induction k generalizing fuel visited with
  | zero =>
    obtain ⟨fuel, rfl⟩ : ∃ f, fuel = f + 1 := ⟨fuel - 1, by omega⟩
    rw [backward_walk_loop, iter.ne, iter_eq_nth this 0 0 (by omega) (by omega)]
    simp
  | succ k ih =>
    obtain ⟨fuel, rfl⟩ : ∃ f, fuel = f + 1 := ⟨fuel - 1, by omega⟩
    rw [backward_walk_loop, iter.ne, iter_eq_nth this (k + 1) 0 hk (by omega),
      decr_zero_free this hz k (by omega)]
    simp only [Nat.add_one_ne_zero, decide_False, Bool.not_false, if_true, Exec.bind_ret]
    rw [deref_zero_free this hz k (by omega), Exec.bind_ret,
      ih fuel _ (by omega) (by omega), content_take_succ _ k (by omega)]
    simp

theorem reverse_walk_loop_zero_free (this : view_ptr) (hz : this.pointee.zero_free)
    (k fuel : Nat) (visited : List char)
    (hk : k ≤ this.pointee.accepted.length) (hf : k < fuel) :
    reverse_walk_loop ⟨this.nth_iter 0⟩ fuel ⟨this.nth_iter k⟩ visited
      = .ret (visited ++ (this.pointee.content.take k).reverse) := by
  induction k generalizing fuel visited with
  | zero =>
    obtain ⟨fuel, rfl⟩ : ∃ f, fuel = f + 1 := ⟨fuel - 1, by omega⟩
    rw [reverse_walk_loop, reverse_iterator.ne, iter.ne,
      iter_eq_nth this 0 0 (by omega) (by omega)]
    simp
  | succ k ih =>
    obtain ⟨fuel, rfl⟩ : ∃ f, fuel = f + 1 := ⟨fuel - 1, by omega⟩
    rw [reverse_walk_loop, reverse_iterator.ne, iter.ne,
      iter_eq_nth this (k + 1) 0 hk (by omega)]
    simp only [Nat.add_one_ne_zero, decide_False, Bool.not_false, if_true,
      reverse_iterator.deref, reverse_iterator.incr, decr_zero_free this hz k (by omega),
      Exec.bind_ret, Exec.map_ret, deref_zero_free this hz k (by omega)]
    rw [ih fuel _ (by omega) (by omega), content_take_succ _ k (by omega)]
    simp

/-- C20: for a view without zero bytes, stepping the iterator backward from `end()` until it
equals `begin()`, and likewise iterating from `rbegin()` to `rend()`, visits the bytes that
the forward iteration of `operator std::string` visits, in reverse order, in `size()`
steps. -/
theorem backward_walk_is_reverse (this : view_ptr) (hz : this.pointee.zero_free) :
    this.backward_walk = .ret this.pointee.content.reverse
      ∧ this.reverse_walk = .ret this.pointee.content.reverse
      ∧ this.to_string = .ret this.pointee.content
      ∧ this.pointee.content.reverse.length = this.pointee.size := by
  have hlen : this.pointee.content.length = this.pointee.accepted.length := by
    simp [filtered_string_view.content]
  have htake : this.pointee.content.take this.pointee.accepted.length
      = this.pointee.content := List.take_of_length_le (le_of_eq hlen)
  refine ⟨?_, ?_, to_string_zero_free this hz, ?_⟩
  · unfold view_ptr.backward_walk
    rw [end_zero_free this hz, begin_zero_free this hz]
    simp only [Exec.bind_ret]
    rw [backward_walk_loop_zero_free this hz _ _ [] le_rfl (accepted_length_lt_fuel _), htake]
    simp
  · unfold view_ptr.reverse_walk view_ptr.rbegin view_ptr.rend
    rw [end_zero_free this hz, begin_zero_free this hz]
    simp only [Exec.bind_ret, Exec.map_ret]
    rw [reverse_walk_loop_zero_free this hz _ _ [] le_rfl (accepted_length_lt_fuel _), htake]
    simp
  · rw [List.length_reverse, hlen, zero_free_size _ hz]

/-- Witness of C20: the test "Reverse Iterator with custom predicate", on "asamoyed" without
its `s` and vowels. -/
theorem backward_walk_is_reverse_witness :
    view_ptr.reverse_walk ⟨64, filtered_string_view.of_string
        ⟨4096, [97, 115, 97, 109, 111, 121, 101, 100]⟩
        (by_value (fun c => !(c = 115 || c = 97 || c = 101 || c = 105 || c = 111 || c = 117)))⟩
      = .ret [100, 121, 109] :=
  (backward_walk_is_reverse ⟨64, filtered_string_view.of_string
      ⟨4096, [97, 115, 97, 109, 111, 121, 101, 100]⟩
      (by_value (fun c => !(c = 115 || c = 97 || c = 101 || c = 105 || c = 111 || c = 117)))⟩
    ⟨rfl, by decide⟩).2.1

/-! ## split when the token does not occur -/

theorem content_length (v : filtered_string_view) : v.content.length = v.accepted.length := by
  simp [filtered_string_view.content]

theorem suffix_snoc {α : Type} (l₁ l₂ : List α) (x : α) (h : l₁ <:+ l₂) :
    l₁ ++ [x] <:+ l₂ ++ [x] := by
  obtain ⟨pre, hpre⟩ := h
  exact ⟨pre, by rw [← hpre, List.append_assoc]⟩

theorem infix_of_suffix_take {α : Type} (t s : List α) (k : Nat) (h : t <:+ s.take k) :
    t <:+: s := by
  obtain ⟨pre, hpre⟩ := h
  exact ⟨pre, s.drop k, by rw [hpre, List.take_append_drop]⟩

theorem find_delimiter_positions_loop_no_occurrence (fsv tok : view_ptr)
    (hzv : fsv.pointee.zero_free) (hzt : tok.pointee.zero_free)
    (hno : ¬ tok.pointee.content <:+: fsv.pointee.content)
    (d k j fuel : Nat) (start : Int) (delim : Bool) (delimiter_pos : List Int)
    (hk : k + d = fsv.pointee.accepted.length) (hf : d < fuel)
    (hj : j < tok.pointee.accepted.length)
    (hsuf : tok.pointee.content.take j <:+ fsv.pointee.content.take k) :
    find_delimiter_positions_loop tok (fsv.nth_iter fsv.pointee.accepted.length) fuel
        (fsv.nth_iter k) start (k : Int) (tok.nth_iter j) delim delimiter_pos
      = .ret ((fsv.pointee.accepted.length : Int), delimiter_pos) := by
  induction d generalizing k j fuel start delim with
  | zero =>
    obtain ⟨fuel, rfl⟩ : ∃ f, fuel = f + 1 := ⟨fuel - 1, by omega⟩
    have hk' : k = fsv.pointee.accepted.length := by omega
    rw [find_delimiter_positions_loop, iter.ne, iter_eq_nth fsv k _ (by omega) le_rfl]
    simp [hk']
  | succ d ih =>
    obtain ⟨fuel, rfl⟩ : ∃ f, fuel = f + 1 := ⟨fuel - 1, by omega⟩
    have hlt : k < fsv.pointee.accepted.length := by omega
    have hne : ¬ k = fsv.pointee.accepted.length := by omega
    have hidx : (k : Int) + 1 = ((k + 1 : Nat) : Int) := by push_cast; rfl
    rw [find_delimiter_positions_loop, iter.ne, iter_eq_nth fsv k _ (by omega) le_rfl,
      deref_zero_free fsv hzv k hlt, deref_zero_free tok hzt j hj,
      incr_zero_free fsv hzv k hlt, incr_zero_free tok hzt j hj,
      end_zero_free tok hzt, begin_zero_free tok hzt]
    simp only [hne, decide_False, Bool.not_false, if_true, Exec.bind_ret, Bool.and_true,
      iter_eq_nth tok (j + 1) _ (by omega) le_rfl, hidx]
    by_cases hc : (fsv.pointee.accepted.getD k (0, 0)).2 = (tok.pointee.accepted.getD j (0, 0)).2
    · have hsuf' : tok.pointee.content.take (j + 1) <:+ fsv.pointee.content.take (k + 1) := by
        rw [content_take_succ _ j hj, content_take_succ _ k hlt, hc]
        exact suffix_snoc _ _ _ hsuf
      have hnl : ¬ j + 1 = tok.pointee.accepted.length := by
        intro hlast
        apply hno
        apply infix_of_suffix_take _ _ (k + 1)
        rw [hlast, List.take_of_length_le (le_of_eq (content_length _))] at hsuf'
        exact hsuf'
      simp only [hc, if_true, hnl, decide_False, Bool.false_eq_true, if_false]
      exact ih (k + 1) (j + 1) fuel _ true (by omega) (by omega) (by omega) hsuf'
    · simp only [hc, if_false]
      exact ih (k + 1) 0 fuel _ delim (by omega) (by omega) (by omega)
        (by rw [List.take_zero]; exact List.nil_suffix)

theorem find_delimiter_positions_no_occurrence (fsv tok : view_ptr)
    (hzv : fsv.pointee.zero_free) (hzt : tok.pointee.zero_free)
    (ht : 0 < tok.pointee.accepted.length)
    (hno : ¬ tok.pointee.content <:+: fsv.pointee.content) (delimiter_pos : List Int) :
    find_delimiter_positions fsv tok delimiter_pos
      = .ret (delimiter_pos ++ [(fsv.pointee.accepted.length : Int)]) := by
  unfold find_delimiter_positions
  rw [begin_zero_free tok hzt, begin_zero_free fsv hzv, end_zero_free fsv hzv]
  simp only [Exec.bind_ret]
  have h := find_delimiter_positions_loop_no_occurrence fsv tok hzv hzt hno
    fsv.pointee.accepted.length 0 0 fsv.pointee.fuel 0 false delimiter_pos (by omega)
    (accepted_length_lt_fuel _) ht (by rw [List.take_zero]; exact List.nil_suffix)
  simp only [Nat.cast_zero] at h
  rw [h]
  rfl

/-- C16 fails as stated: the default-constructed view split on "adam", which does not occur
in it, gives the one piece `filtered_string_view("")`, and that view does not compare `==`
to the default-constructed view. -/
theorem split_default_piece_ne :
    (split 32 ⟨64, filtered_string_view.default_⟩
        ⟨128, filtered_string_view.of_string ⟨8192, [97, 100, 97, 109]⟩
          default_predicate⟩).bind (fun l =>
          match l with
          | [piece] => view_eq ⟨192, piece⟩ ⟨64, filtered_string_view.default_⟩
          | _ => .ret true) = .ret false := by
  decide

/-- C16, amended: for a view `v` over a present buffer without zero bytes and a token `t`
over a buffer without zero bytes with `size(t) >= 1` whose filtered content does not occur
as a contiguous run in the filtered content of `v`, `split(v, t)` returns one piece, and
that piece compares `==` to `v`. -/
theorem split_no_occurrence (lit piece_address : Nat) (fsv tok : view_ptr) (b : Buffer)
    (hd : fsv.pointee.data_ = some b) (hzv : fsv.pointee.zero_free)
    (hzt : tok.pointee.zero_free) (ht : 1 ≤ tok.pointee.size)
    (hno : ¬ tok.pointee.content <:+: fsv.pointee.content) :
    ∃ piece, split lit fsv tok = .ret [piece]
      ∧ view_eq ⟨piece_address, piece⟩ fsv = .ret true := by
  have ht' : 0 < tok.pointee.accepted.length := by rw [← zero_free_size _ hzt]; omega
  have hfind := find_delimiter_positions_no_occurrence fsv tok hzv hzt ht' hno [0]
  have hsplit : split lit fsv tok
      = split_loop lit fsv.pointee [0, (fsv.pointee.accepted.length : Int)] := by
    rw [split, if_neg (by omega), hfind]
    rfl
  by_cases hm : fsv.pointee.accepted.length = 0
  · refine ⟨empty_literal_view lit, ?_, ?_⟩
    · rw [hsplit]
      simp [split_loop, hm, Exec.map, Exec.bind]
    · have hze : (empty_literal_view lit).zero_free := ⟨rfl, by simp⟩
      apply view_eq_zero_free ⟨piece_address, empty_literal_view lit⟩ fsv hze hzv
      · simp [null_vs_empty, empty_literal_view, hd]
      · have h1 : (empty_literal_view lit).content = [] :=
          content_of_length_zero rfl
        have h2 : fsv.pointee.content = [] := by
          apply List.eq_nil_of_length_eq_zero
          rw [content_length, hm]
        simp only [h1, h2]
  · obtain ⟨w, h1, h2⟩ := substr_whole_view_eq piece_address fsv.address fsv.pointee b hd hzv
    rw [zero_free_size _ hzv] at h1
    refine ⟨w, ?_, h2⟩
    rw [hsplit]
    have hne : ¬ ((fsv.pointee.accepted.length : Int) = 0) := by omega
    simp only [split_loop, sub_zero, hne, if_false, h1, Exec.bind_ret, Exec.map_ret]

/-- Witness of C16 amended: the test "split function when delimiter doesn't exist", "xax"
split on "hello". -/
theorem split_no_occurrence_witness :
    ∃ piece, split 32
        ⟨64, filtered_string_view.of_string ⟨4096, [120, 97, 120]⟩ default_predicate⟩
        ⟨128, filtered_string_view.of_string ⟨8192, [104, 101, 108, 108, 111]⟩
          default_predicate⟩ = .ret [piece]
      ∧ view_eq ⟨192, piece⟩
        ⟨64, filtered_string_view.of_string ⟨4096, [120, 97, 120]⟩ default_predicate⟩
        = .ret true :=
  split_no_occurrence 32 192
    ⟨64, filtered_string_view.of_string ⟨4096, [120, 97, 120]⟩ default_predicate⟩
    ⟨128, filtered_string_view.of_string ⟨8192, [104, 101, 108, 108, 111]⟩ default_predicate⟩
    ⟨4096, [120, 97, 120]⟩ rfl ⟨rfl, by decide⟩ ⟨rfl, by decide⟩ (by decide) (by decide)

/-! ## begin(), end() and iterator equality -/

theorem iter_eq_self (it : iter) : iter.eq it it = true := by
  simp [iter.eq, same_range, ptr_eq]

/-- For every view `begin()` and `end()` return, they compare equal exactly when `size()` is
0, and then both hold the null pointer. -/
theorem begin_eq_end_iff (this : view_ptr) :
    ∃ b e, this.begin_ = .ret b ∧ this.end_ = .ret e
      ∧ (iter.eq b e = true ↔ this.pointee.size = 0)
      ∧ (this.pointee.size = 0 → b.pointer_ = none ∧ e.pointer_ = none) := by
  by_cases hs : this.pointee.size = 0
  · refine ⟨⟨this, none, 0, 0⟩, ⟨this, none, 0, 0⟩, by simp [view_ptr.begin_, hs],
      by simp [view_ptr.end_, hs], ?_, fun _ => ⟨rfl, rfl⟩⟩
    simp [hs, iter_eq_self]
  · obtain ⟨buf, hb⟩ := size_pos_data (Nat.pos_of_ne_zero hs)
    obtain ⟨t0, h0, l0⟩ := subscript_total hb 0
    obtain ⟨t1, h1, l1⟩ := subscript_total hb ((this.pointee.size : Int) - 1)
    have hmono : t0 ≤ t1 :=
      subscript_loop_mono _ _ _ 0 0 0 ((this.pointee.size : Int) - 1) t0 t1 (by simp)
        (by omega) l0 l1
    have hne : ¬ (buf.addr + t0 = buf.addr + (t1 + 1)) := by omega
    refine ⟨⟨this, some ⟨buf, t0⟩, this.pointee.size, 0⟩,
      ⟨this, some ⟨buf, t1 + 1⟩, this.pointee.size, this.pointee.size⟩,
      by simp [view_ptr.begin_, hs, h0], by simp [view_ptr.end_, hs, h1], ?_,
      fun h => absurd h hs⟩
    simp [iter.eq, same_range, ptr_eq, char_ptr.address, hne, hs]

/-- On a view without zero bytes that accepts at least one byte, `begin()` points at the
first accepted byte and `end()` one past the last accepted byte. -/
theorem begin_end_positions_zero_free (this : view_ptr) (b : Buffer)
    (hd : this.pointee.data_ = some b) (hz : this.pointee.zero_free)
    (hs : 0 < this.pointee.size) :
    this.begin_ = .ret ⟨this, some ⟨b, (this.pointee.accepted.getD 0 (0, 0)).1⟩,
        this.pointee.size, 0⟩
      ∧ this.end_ = .ret ⟨this,
          some ⟨b, (this.pointee.accepted.getD (this.pointee.size - 1) (0, 0)).1 + 1⟩,
          this.pointee.size, this.pointee.size⟩ := by
  have hm := zero_free_size _ hz
  have hm0 : ¬ this.pointee.accepted.length = 0 := by omega
  constructor
  · rw [begin_zero_free this hz]
    simp [view_ptr.nth_iter, hd, hm0, filtered_string_view.pos, hm, Nat.pos_of_ne_zero hm0]
  · rw [end_zero_free this hz]
    simp [view_ptr.nth_iter, hd, hm0, filtered_string_view.pos, hm]

/-- C21, at the failing input: for the view over the `std::string` of the two bytes zero, `a`
with the predicate that accepts `a`, `size()` is 1 and the one accepted byte is at offset 1,
but `begin()` points at the zero byte at offset 0, where `operator[]` stops, and `end()`
points at offset 1, at the accepted byte instead of one past it. -/
theorem begin_at_zero_byte :
    (filtered_string_view.of_string ⟨4096, [0, 97]⟩ (by_value (fun c => c = 97))).size = 1
      ∧ (filtered_string_view.of_string ⟨4096, [0, 97]⟩ (by_value (fun c => c = 97))).accepted
          = [(1, 97)]
      ∧ (view_ptr.begin_ ⟨64, filtered_string_view.of_string ⟨4096, [0, 97]⟩
            (by_value (fun c => c = 97))⟩).map (fun it => it.pointer_.map char_ptr.off)
          = .ret (some 0)
      ∧ (view_ptr.begin_ ⟨64, filtered_string_view.of_string ⟨4096, [0, 97]⟩
            (by_value (fun c => c = 97))⟩).bind iter.deref = .ret 0
      ∧ (view_ptr.end_ ⟨64, filtered_string_view.of_string ⟨4096, [0, 97]⟩
            (by_value (fun c => c = 97))⟩).map (fun it => it.pointer_.map char_ptr.off)
          = .ret (some 1) := by
  decide

/-- C22: two iterators compare equal exactly when their views hold the same buffer address
and are the same object (the same predicate storage), and the iterators hold the same
pointer; so for a view `v` with `size() > 0` and a copy `c` of it at another address,
`v.begin() == v.begin()` is true and `v.begin() == c.begin()` is false. -/
theorem iter_eq_is_identity (v c : view_ptr) (hc : c.pointee = v.pointee.copy)
    (ha : c.address ≠ v.address) (hs : 0 < v.pointee.size) :
    (∀ lhs rhs : iter, iter.eq lhs rhs = true ↔
        (lhs.fsv_.pointee.data_.map Buffer.addr = rhs.fsv_.pointee.data_.map Buffer.addr
          ∧ lhs.fsv_.address = rhs.fsv_.address)
        ∧ lhs.pointer_.map char_ptr.address = rhs.pointer_.map char_ptr.address)
      ∧ ∃ i j, v.begin_ = .ret i ∧ c.begin_ = .ret j
        ∧ iter.eq i i = true ∧ iter.eq i j = false := by
  constructor
  · intro lhs rhs
    simp [iter.eq, same_range, ptr_eq]
  · have hcv : c.pointee = v.pointee := hc
    obtain ⟨buf, hb⟩ := size_pos_data hs
    obtain ⟨t0, h0, _⟩ := subscript_total hb 0
    have hs0 : ¬ v.pointee.size = 0 := by omega
    refine ⟨⟨v, some ⟨buf, t0⟩, v.pointee.size, 0⟩, ⟨c, some ⟨buf, t0⟩, v.pointee.size, 0⟩,
      by simp [view_ptr.begin_, hs0, h0], by simp [view_ptr.begin_, hcv, hs0, h0],
      iter_eq_self _, ?_⟩
    simp [iter.eq, same_range, Ne.symm ha]

/-- Witness of C22: "adam" at address 64 and its copy at address 128. -/
theorem iter_eq_is_identity_witness :
    ∃ i j, view_ptr.begin_ ⟨64, filtered_string_view.of_string ⟨4096, [97, 100, 97, 109]⟩
          default_predicate⟩ = .ret i
      ∧ view_ptr.begin_ ⟨128, (filtered_string_view.of_string ⟨4096, [97, 100, 97, 109]⟩
          default_predicate).copy⟩ = .ret j
      ∧ iter.eq i i = true ∧ iter.eq i j = false :=
  (iter_eq_is_identity
    ⟨64, filtered_string_view.of_string ⟨4096, [97, 100, 97, 109]⟩ default_predicate⟩
    ⟨128, (filtered_string_view.of_string ⟨4096, [97, 100, 97, 109]⟩ default_predicate).copy⟩
    rfl (by decide) (by decide)).2

/-- C23: on a view over a present buffer without zero bytes the iterator positions are those
of ranks 0 (`begin()`) to `size()` (`end()`); for a position other than `end()`, `--` after
`++` gives the position back, and for a position other than `begin()`, `++` after `--` gives
it back, raw position and rank; the last accepted byte and `end()` are such a pair. -/
theorem incr_decr_inverse (this : view_ptr) (b : Buffer) (hd : this.pointee.data_ = some b)
    (hz : this.pointee.zero_free) (k : Nat) (hk : k < this.pointee.size) :
    this.begin_ = .ret (this.nth_iter 0)
      ∧ this.end_ = .ret (this.nth_iter this.pointee.size)
      ∧ (this.nth_iter k).incr = .ret (this.nth_iter (k + 1))
      ∧ (this.nth_iter k).incr.bind iter.decr = .ret (this.nth_iter k)
      ∧ (this.nth_iter (k + 1)).decr.bind iter.incr = .ret (this.nth_iter (k + 1))
      ∧ (this.nth_iter k).pointer_ = some ⟨b, (this.pointee.accepted.getD k (0, 0)).1⟩
      ∧ (this.nth_iter k).index_ = k
      ∧ (this.nth_iter this.pointee.size).pointer_
          = some ⟨b, (this.pointee.accepted.getD (this.pointee.size - 1) (0, 0)).1 + 1⟩ := by
  have hm := zero_free_size _ hz
  rw [hm] at hk ⊢
  have hm0 : ¬ this.pointee.accepted.length = 0 := by omega
  refine ⟨begin_zero_free this hz, end_zero_free this hz, incr_zero_free this hz k hk, ?_, ?_,
    ?_, ?_, ?_⟩
  · rw [incr_zero_free this hz k hk, Exec.bind_ret, decr_zero_free this hz k hk]
  · rw [decr_zero_free this hz k hk, Exec.bind_ret, incr_zero_free this hz k hk]
  · simp [view_ptr.nth_iter, hd, hm0, filtered_string_view.pos, hk]
  · simp only [view_ptr.nth_iter, hd, hm0, if_false]
  · simp [view_ptr.nth_iter, hd, hm0, filtered_string_view.pos]

/-- Witness of C23: on "asamoyed" without its `s` and vowels (`m`, `y`, `d` at offsets 3, 5
and 7), from the last accepted byte `++` reaches `end()` and `--` comes back. -/
theorem incr_decr_inverse_witness :
    ((view_ptr.nth_iter ⟨64, filtered_string_view.of_string
          ⟨4096, [97, 115, 97, 109, 111, 121, 101, 100]⟩
          (by_value (fun c => !(c = 115 || c = 97 || c = 101 || c = 105 || c = 111
            || c = 117)))⟩ 2).incr.bind iter.decr).map
        (fun it => (it.pointer_.map char_ptr.off, it.index_)) = .ret (some 7, 2) := by
  obtain ⟨_, _, _, h4, _⟩ := incr_decr_inverse
    ⟨64, filtered_string_view.of_string ⟨4096, [97, 115, 97, 109, 111, 121, 101, 100]⟩
      (by_value (fun c => !(c = 115 || c = 97 || c = 101 || c = 105 || c = 111 || c = 117)))⟩
    ⟨4096, [97, 115, 97, 109, 111, 121, 101, 100]⟩ rfl ⟨rfl, by decide⟩ 2 (by decide)
  rw [h4]
  decide

/-- C24, at the failing input: for "a b / c" split on " / " (default predicates) the blank at
index 1 starts a match that is abandoned at `b` without clearing `delim`, and the occurrence
at indices 3 to 5 is recorded as the pair 1, 6: its width is 5, not the 3 of the token, and
the bytes at the indices 1 to 5 are " b / ". -/
theorem stale_start_after_abandoned_match :
    find_delimiter_positions
        ⟨64, filtered_string_view.of_string ⟨4096, [97, 32, 98, 32, 47, 32, 99]⟩
          default_predicate⟩
        ⟨128, filtered_string_view.of_string ⟨8192, [32, 47, 32]⟩ default_predicate⟩ [0]
      = .ret [0, 1, 6, 7]
    ∧ (filtered_string_view.of_string ⟨8192, [32, 47, 32]⟩ default_predicate).size = 3
    ∧ (((filtered_string_view.of_string ⟨4096, [97, 32, 98, 32, 47, 32, 99]⟩
          default_predicate).content.drop 1).take 5) = [32, 98, 32, 47, 32]
    ∧ (filtered_string_view.of_string ⟨8192, [32, 47, 32]⟩ default_predicate).content
        = [32, 47, 32] := by
  decide

/-- C25, at the failing input: for the view over the `std::string` of the three bytes `a`,
zero, `b` with the accept-all predicate, `size()` is 3, but `end()` is right after the zero
byte, the loop of `find_delimiter_positions` visits two bytes only, and the position list
for the token "x" is 0, 2: it does not end with `size()`. -/
theorem positions_end_before_size :
    (filtered_string_view.of_string ⟨4096, [97, 0, 98]⟩ default_predicate).size = 3
      ∧ (filtered_string_view.of_string ⟨8192, [120]⟩ default_predicate).size = 1
      ∧ find_delimiter_positions
          ⟨64, filtered_string_view.of_string ⟨4096, [97, 0, 98]⟩ default_predicate⟩
          ⟨128, filtered_string_view.of_string ⟨8192, [120]⟩ default_predicate⟩ [0]
        = .ret [0, 2] := by
  decide

/-! ## compose after substr -/

theorem compose_content_zero_free (b : Buffer) (fs : List filter) (hz : ∀ c ∈ b.bytes, c ≠ 0) :
    (⟨some b, strlen b, compose_pred fs⟩ : filtered_string_view).content
      = ((b.bytes.enumFrom 0).filter
          (fun x => fs.all (fun f => f ⟨b.addr + x.1, x.2⟩))).map Prod.snd := by
  simp [filtered_string_view.content, filtered_string_view.accepted, accepted,
    strlen_zero_free b hz, compose_pred_eq_all]

/-- On a present buffer `substr` returns a view over the same buffer for every position
and count for which no `int` computation overflows. -/
theorem substr_total (v : filtered_string_view) (b : Buffer) (hd : v.data_ = some b)
    (pos count : Int)
    (harith : (count ≤ 0 → int_sub (v.size : Int) pos = .ret ((v.size : Int) - pos))
      ∧ int_add pos (if count ≤ 0 then (v.size : Int) - pos else count)
        = .ret (pos + (if count ≤ 0 then (v.size : Int) - pos else count))
      ∧ int_sub (pos + (if count ≤ 0 then (v.size : Int) - pos else count)) 1
        = .ret (pos + (if count ≤ 0 then (v.size : Int) - pos else count) - 1)) :
    ∃ w, substr v pos count = .ret w ∧ w.data_ = some b := by
  obtain ⟨lo, hlo, _⟩ := subscript_total hd pos
  obtain ⟨hi, hhi, _⟩ := subscript_total hd
    (pos + (if count ≤ 0 then (v.size : Int) - pos else count) - 1)
  refine ⟨⟨some b, strlen b, substr_pred v
    (if count ≤ 0 then (v.size : Int) - pos else count) ⟨b, lo⟩ ⟨b, hi⟩⟩, ?_, rfl⟩
  rw [substr_of_no_overflow v pos count harith.1 harith.2.1 harith.2.2]
  simp [hlo, hhi, filtered_string_view.data, hd, filtered_string_view.of_c_str]

/-- The claim C26 as first stated fails: on "Adam Chen", `substr(v, INT_MIN, 0)` computes
`size() - INT_MIN` in `int`, which overflows, so there is no view to hand to `compose`,
while `compose(v, fs)` is the view of the upper-case letters "AC". -/
theorem compose_after_overflowing_substr :
    (substr (filtered_string_view.of_string
          ⟨4096, [65, 100, 97, 109, 32, 67, 104, 101, 110]⟩ default_predicate)
          (-2147483648) 0).bind
        (fun w => compose w [by_value (fun c => decide (65 ≤ c ∧ c ≤ 90))]) = .undefined
      ∧ (compose (filtered_string_view.of_string
          ⟨4096, [65, 100, 97, 109, 32, 67, 104, 101, 110]⟩ default_predicate)
          [by_value (fun c => decide (65 ≤ c ∧ c ≤ 90))]).map filtered_string_view.content
        = .ret [65, 67] :=
  ⟨rfl, by decide⟩

/-- C26, amended: for a view `v` over a present buffer without zero bytes, an `int` position
`pos` and a `count` for which neither `n` nor `pos + n` is above `INT_MAX`, where
`n = size() - pos` for `count <= 0` and `n = count` otherwise, and any list `fs` of
predicates, `substr(v, pos, count)` returns a view `w`, and `compose(w, fs)` returns the
same view as `compose(v, fs)`: its filtered content is the bytes of the whole buffer that
every predicate of `fs` accepts, whatever the range of `w`. -/
theorem compose_discards_substr_range (v : filtered_string_view) (b : Buffer)
    (fs : List filter) (pos count : Int) (hd : v.data_ = some b)
    (hz : ∀ c ∈ b.bytes, c ≠ 0) (hp : is_int pos = true)
    (hn : (if count ≤ 0 then (v.size : Int) - pos else count) ≤ INT_MAX)
    (hs : pos + (if count ≤ 0 then (v.size : Int) - pos else count) ≤ INT_MAX) :
    ∃ w u, substr v pos count = .ret w ∧ compose w fs = .ret u ∧ compose v fs = .ret u
      ∧ u.content = ((b.bytes.enumFrom 0).filter
          (fun x => fs.all (fun f => f ⟨b.addr + x.1, x.2⟩))).map Prod.snd := by
  obtain ⟨w, hw, hwd⟩ := substr_total v b hd pos count
    (substr_arith_int v.size pos count hp hn hs)
  refine ⟨w, ⟨some b, strlen b, compose_pred fs⟩, hw, ?_, ?_, compose_content_zero_free b fs hz⟩
  · simp [compose, filtered_string_view.data, hwd, filtered_string_view.of_c_str]
  · simp [compose, filtered_string_view.data, hd, filtered_string_view.of_c_str]

/-- Witness of C26: "Adam Chen" cut to "Chen" by `substr(v, 5)` and then composed with the
predicate that accepts upper-case letters gives "AC", the upper-case letters of the whole
buffer. -/
theorem compose_discards_substr_range_witness :
    ((substr (filtered_string_view.of_string
          ⟨4096, [65, 100, 97, 109, 32, 67, 104, 101, 110]⟩ default_predicate) 5 0).bind
        (fun w => compose w [by_value (fun c => decide (65 ≤ c ∧ c ≤ 90))])).map
      filtered_string_view.content = .ret [65, 67] := by
  obtain ⟨w, u, h1, h2, _, h4⟩ := compose_discards_substr_range
    (filtered_string_view.of_string ⟨4096, [65, 100, 97, 109, 32, 67, 104, 101, 110]⟩
      default_predicate)
    ⟨4096, [65, 100, 97, 109, 32, 67, 104, 101, 110]⟩
    [by_value (fun c => decide (65 ≤ c ∧ c ≤ 90))] 5 0 rfl (by decide) (by decide)
    (by decide) (by decide)
  rw [h1, Exec.bind_ret, h2, Exec.map_ret, h4]
  decide

/-! ## The position list on views without zero bytes -/

theorem positions_ok_mono (dp : List Int) (bound bound' : Int) (h : positions_ok dp bound)
    (hb : bound ≤ bound') : positions_ok dp bound' :=
  ⟨h.1, h.2.1, h.2.2.1, fun x hx => ⟨(h.2.2.2 x hx).1, le_trans (h.2.2.2 x hx).2 hb⟩⟩

theorem positions_ok_append (dp : List Int) (bound bound' s e : Int)
    (h : positions_ok dp bound) (hs : ∀ x ∈ dp, x ≤ s) (hse : s ≤ e) (he : e ≤ bound')
    (hb : bound ≤ bound') : positions_ok (dp ++ [s, e]) bound' := by
  obtain ⟨h0, hodd, hsorted, hbounds⟩ := h
  have hmem : (0 : Int) ∈ dp := by
    cases dp with
    | nil => simp at h0
    | cons a dp =>
      simp only [List.head?_cons, Option.some.injEq] at h0
      simp [h0]
  have hs0 : 0 ≤ s := hs 0 hmem
  refine ⟨?_, ?_, ?_, ?_⟩
  · cases dp with
    | nil => simp at h0
    | cons a dp => simpa using h0
  · simp only [List.length_append, List.length_cons, List.length_nil]
    omega
  · rw [List.pairwise_append]
    refine ⟨hsorted, by simp [hse], ?_⟩
    intro x hx y hy
    simp only [List.mem_cons, List.mem_singleton, List.not_mem_nil, or_false] at hy
    rcases hy with rfl | rfl
    · exact hs x hx
    · exact le_trans (hs x hx) hse
  · intro x hx
    simp only [List.mem_append, List.mem_cons, List.mem_singleton, List.not_mem_nil,
      or_false] at hx
    rcases hx with hx | rfl | rfl
    · exact ⟨(hbounds x hx).1, le_trans (hbounds x hx).2 hb⟩
    · exact ⟨hs0, le_trans hse he⟩
    · exact ⟨le_trans hs0 hse, he⟩

theorem find_delimiter_positions_loop_ok (fsv tok : view_ptr)
    (hzv : fsv.pointee.zero_free) (hzt : tok.pointee.zero_free)
    (d k j fuel : Nat) (start : Int) (delim : Bool) (dp : List Int)
    (hk : k + d = fsv.pointee.accepted.length) (hf : d < fuel)
    (hj : j < tok.pointee.accepted.length) (hok : positions_ok dp (k : Int))
    (hdelim : delim = true → (∀ x ∈ dp, x ≤ start) ∧ start < (k : Int)) :
    ∃ dp', find_delimiter_positions_loop tok (fsv.nth_iter fsv.pointee.accepted.length) fuel
        (fsv.nth_iter k) start (k : Int) (tok.nth_iter j) delim dp
          = .ret ((fsv.pointee.accepted.length : Int), dp')
      ∧ positions_ok dp' (fsv.pointee.accepted.length : Int) := by
  induction d generalizing k j fuel start delim dp with
  | zero =>
    obtain ⟨fuel, rfl⟩ : ∃ f, fuel = f + 1 := ⟨fuel - 1, by omega⟩
    have hk' : k = fsv.pointee.accepted.length := by omega
    refine ⟨dp, ?_, by rw [← hk']; exact hok⟩
    rw [find_delimiter_positions_loop, iter.ne, iter_eq_nth fsv k _ (by omega) le_rfl]
    simp [hk']
  | succ d ih =>
    obtain ⟨fuel, rfl⟩ : ∃ f, fuel = f + 1 := ⟨fuel - 1, by omega⟩
    have hlt : k < fsv.pointee.accepted.length := by omega
    have hne : ¬ k = fsv.pointee.accepted.length := by omega
    have hidx : (k : Int) + 1 = ((k + 1 : Nat) : Int) := by push_cast; rfl
    have hkk : (k : Int) ≤ ((k + 1 : Nat) : Int) := by omega
    rw [find_delimiter_positions_loop, iter.ne, iter_eq_nth fsv k _ (by omega) le_rfl,
      deref_zero_free fsv hzv k hlt, deref_zero_free tok hzt j hj,
      incr_zero_free fsv hzv k hlt, incr_zero_free tok hzt j hj,
      end_zero_free tok hzt, begin_zero_free tok hzt]
    simp only [hne, decide_False, Bool.not_false, if_true, Exec.bind_ret, Bool.and_true,
      iter_eq_nth tok (j + 1) _ (by omega) le_rfl, hidx]
    have hstart : (∀ x ∈ dp, x ≤ (if (!delim) = true then (k : Int) else start))
        ∧ (if (!delim) = true then (k : Int) else start) ≤ (k : Int) := by
      cases delim with
      | false => exact ⟨fun x hx => (hok.2.2.2 x hx).2, le_rfl⟩
      | true => exact ⟨(hdelim rfl).1, le_of_lt (hdelim rfl).2⟩
    by_cases hc : (fsv.pointee.accepted.getD k (0, 0)).2 = (tok.pointee.accepted.getD j (0, 0)).2
    · by_cases hlast : j + 1 = tok.pointee.accepted.length
      · simp only [hc, if_true, hlast, decide_True]
        exact ih (k + 1) 0 fuel _ false _ (by omega) (by omega) (by omega)
          (positions_ok_append dp k _ _ _ hok hstart.1 (by omega) le_rfl hkk)
          (fun h => by cases h)
      · simp only [hc, if_true, hlast, decide_False, Bool.false_eq_true, if_false]
        exact ih (k + 1) (j + 1) fuel _ true dp (by omega) (by omega) (by omega)
          (positions_ok_mono dp _ _ hok hkk) (fun _ => ⟨hstart.1, by omega⟩)
    · simp only [hc, if_false]
      exact ih (k + 1) 0 fuel _ delim dp (by omega) (by omega) (by omega)
        (positions_ok_mono dp _ _ hok hkk)
        (fun h => ⟨(hdelim h).1, by have := (hdelim h).2; omega⟩)

theorem split_loop_pieces (lit : Nat) (v : filtered_string_view) (k : Nat) (dp : List Int)
    (hlen : dp.length = 2 * k)
    (hsub : ∀ l ∈ dp, ∀ r ∈ dp, r - l ≠ 0 → ∃ w, substr v l (r - l) = .ret w) :
    ∃ pieces, split_loop lit v dp = .ret pieces ∧ pieces.length = k := by
  induction k generalizing dp with
  | zero =>
    have : dp = [] := List.eq_nil_of_length_eq_zero (by omega)
    subst this
    exact ⟨[], rfl, rfl⟩
  | succ k ih =>
    match dp, hlen with
    | l :: r :: rest, hlen =>
      obtain ⟨pieces, hp, hpl⟩ := ih rest (by simp at hlen; omega)
        (fun l' hl' r' hr' => hsub l' (by simp [hl']) r' (by simp [hr']))
      by_cases hlr : r - l = 0
      · exact ⟨empty_literal_view lit :: pieces, by simp [split_loop, hlr, hp], by simp [hpl]⟩
      · obtain ⟨w, hw⟩ := hsub l (by simp) r (by simp) hlr
        exact ⟨w :: pieces, by simp [split_loop, hlr, hw, hp], by simp [hpl]⟩
    | [_], hlen =>
      simp at hlen
      omega
    | [], hlen => simp at hlen

/-- On a view that is default-constructed or over a buffer without zero bytes, with a token
over a buffer without zero bytes with `size() >= 1`: the position list that `split` builds
has `2 (k + 1)` entries for some `k`, starts with 0, ends with `size()` of the view, is
non-decreasing with entries between 0 and `size()`, and `split` returns `k + 1` pieces. -/
theorem split_positions_zero_free (lit : Nat) (fsv tok : view_ptr)
    (hzv : fsv.pointee.zero_free) (hzt : tok.pointee.zero_free) (ht : 1 ≤ tok.pointee.size)
    (hfit : (fsv.pointee.size : Int) ≤ INT_MAX) :
    ∃ dp pieces k, find_delimiter_positions fsv tok [0] = .ret dp
      ∧ dp.length = 2 * (k + 1) ∧ dp.head? = some 0
      ∧ dp.getLast? = some (fsv.pointee.size : Int)
      ∧ dp.Pairwise (fun x y => x ≤ y)
      ∧ (∀ x ∈ dp, 0 ≤ x ∧ x ≤ (fsv.pointee.size : Int))
      ∧ split lit fsv tok = .ret pieces ∧ pieces.length = k + 1 := by
  have hm := zero_free_size _ hzv
  have ht' : 0 < tok.pointee.accepted.length := by rw [← zero_free_size _ hzt]; omega
  obtain ⟨dp', hloop, h0, hodd, hsorted, hbounds⟩ := find_delimiter_positions_loop_ok fsv tok
    hzv hzt fsv.pointee.accepted.length 0 0 fsv.pointee.fuel 0 false [0] (by omega)
    (accepted_length_lt_fuel _) ht'
    ⟨rfl, rfl, by simp, by simp⟩ (fun h => by cases h)
  simp only [Nat.cast_zero] at hloop
  have hfind : find_delimiter_positions fsv tok [0]
      = .ret (dp' ++ [(fsv.pointee.accepted.length : Int)]) := by
    unfold find_delimiter_positions
    rw [begin_zero_free tok hzt, begin_zero_free fsv hzv, end_zero_free fsv hzv]
    simp only [Exec.bind_ret]
    rw [hloop]
    rfl
  have hne : dp' ≠ [] := by
    intro h; rw [h] at h0; simp at h0
  have hbounds' : ∀ x ∈ dp' ++ [(fsv.pointee.accepted.length : Int)],
      0 ≤ x ∧ x ≤ (fsv.pointee.accepted.length : Int) := by
    intro x hx
    simp only [List.mem_append, List.mem_singleton] at hx
    rcases hx with hx | rfl
    · exact hbounds x hx
    · exact ⟨by omega, le_rfl⟩
  have hlen : (dp' ++ [(fsv.pointee.accepted.length : Int)]).length
      = 2 * ((dp'.length - 1) / 2 + 1) := by
    simp only [List.length_append, List.length_singleton]
    omega
  have hsub : ∀ l ∈ dp' ++ [(fsv.pointee.accepted.length : Int)],
      ∀ r ∈ dp' ++ [(fsv.pointee.accepted.length : Int)], r - l ≠ 0 →
        ∃ w, substr fsv.pointee l (r - l) = .ret w := by
    intro l hl r hr hlr
    cases hd : fsv.pointee.data_ with
    | none =>
      have hz0 : fsv.pointee.accepted.length = 0 := by simp [accepted_none hd]
      have h1 := hbounds' l hl
      have h2 := hbounds' r hr
      rw [hz0] at h1 h2
      omega
    | some b =>
      have h1 := hbounds' l hl
      have h2 := hbounds' r hr
      rw [← hm] at h1 h2
      have hfit' := hfit
      unfold INT_MAX at hfit'
      obtain ⟨w, hw, _⟩ := substr_total fsv.pointee b hd l (r - l)
        (substr_arith_int fsv.pointee.size l (r - l) (by rw [is_int_iff]; omega)
          (by unfold INT_MAX; split_ifs <;> omega) (by unfold INT_MAX; split_ifs <;> omega))
      exact ⟨w, hw⟩
  obtain ⟨pieces, hp, hpl⟩ := split_loop_pieces lit fsv.pointee _ _ hlen hsub
  refine ⟨dp' ++ [(fsv.pointee.accepted.length : Int)], pieces, (dp'.length - 1) / 2, hfind,
    hlen, ?_, ?_, ?_, ?_, ?_, hpl⟩
  · cases dp' with
    | nil => exact absurd rfl hne
    | cons a dp' => simpa using h0
  · rw [hm]; simp
  · rw [List.pairwise_append]
    refine ⟨hsorted, by simp, ?_⟩
    intro x hx y hy
    simp only [List.mem_singleton] at hy
    rw [hy]
    exact (hbounds x hx).2
  · rw [hm]; exact hbounds'
  · rw [split, if_neg (by omega), hfind, Exec.bind_ret, hp]

/-! ## split on a token of one byte -/

theorem find_delimiter_positions_loop_single_byte (fsv tok : view_ptr)
    (hzv : fsv.pointee.zero_free) (hzt : tok.pointee.zero_free)
    (ht : tok.pointee.accepted.length = 1)
    (d k fuel : Nat) (start : Int) (dp : List Int)
    (hk : k + d = fsv.pointee.accepted.length) (hf : d < fuel) :
    find_delimiter_positions_loop tok (fsv.nth_iter fsv.pointee.accepted.length) fuel
        (fsv.nth_iter k) start (k : Int) (tok.nth_iter 0) false dp
      = .ret ((fsv.pointee.accepted.length : Int),
          dp ++ single_byte_marks (tok.pointee.accepted.getD 0 (0, 0)).2
            (fsv.pointee.content.drop k) k) := by
  induction d generalizing k fuel start dp with
  | zero =>
    obtain ⟨fuel, rfl⟩ : ∃ f, fuel = f + 1 := ⟨fuel - 1, by omega⟩
    have hk' : k = fsv.pointee.accepted.length := by omega
    rw [find_delimiter_positions_loop, iter.ne, iter_eq_nth fsv k _ (by omega) le_rfl]
    simp [hk', content_drop_length, single_byte_marks]
  | succ d ih =>
    obtain ⟨fuel, rfl⟩ : ∃ f, fuel = f + 1 := ⟨fuel - 1, by omega⟩
    have hlt : k < fsv.pointee.accepted.length := by omega
    have hne : ¬ k = fsv.pointee.accepted.length := by omega
    have hidx : (k : Int) + 1 = ((k + 1 : Nat) : Int) := by push_cast; rfl
    rw [find_delimiter_positions_loop, iter.ne, iter_eq_nth fsv k _ (by omega) le_rfl,
      deref_zero_free fsv hzv k hlt, deref_zero_free tok hzt 0 (by omega),
      incr_zero_free fsv hzv k hlt, incr_zero_free tok hzt 0 (by omega),
      end_zero_free tok hzt, begin_zero_free tok hzt, content_drop _ k hlt]
    simp only [hne, decide_False, Bool.not_false, if_true, Exec.bind_ret, Bool.and_true,
      iter_eq_nth tok (0 + 1) _ (by omega) le_rfl, hidx, ht, zero_add, decide_True,
      single_byte_marks]
    by_cases hc : (fsv.pointee.accepted.getD k (0, 0)).2 = (tok.pointee.accepted.getD 0 (0, 0)).2
    · have heq1 : (tok.nth_iter 1).eq (tok.nth_iter 1) = true := by
        rw [iter_eq_nth tok 1 1 (by omega) (by omega)]; simp
      simp only [hc, if_true, heq1]
      rw [ih (k + 1) fuel _ _ (by omega) (by omega)]
      simp
    · simp only [hc, if_false]
      exact ih (k + 1) fuel _ dp (by omega) (by omega)

theorem piece_content (lit : Nat) (v : filtered_string_view)
    (hz : v.zero_free) (hfit : (v.size : Int) ≤ INT_MAX) (l r : Nat) (hlr : l ≤ r)
    (hr : r ≤ v.accepted.length) :
    ∃ piece, (if ((r : Int) - (l : Int) = 0) then Exec.ret (empty_literal_view lit)
        else substr v (l : Int) ((r : Int) - (l : Int))) = .ret piece
      ∧ piece.content = (v.content.drop l).take (r - l) := by
  by_cases h : (r : Int) - (l : Int) = 0
  · refine ⟨empty_literal_view lit, by simp [h], ?_⟩
    have hrl : r - l = 0 := by omega
    rw [hrl, List.take_zero]
    exact content_of_length_zero rfl
  · cases hd : v.data_ with
    | none =>
      have hz0 : v.accepted.length = 0 := by simp [accepted_none hd]
      omega
    | some b =>
      have hsz := zero_free_size v hz
      obtain ⟨w, h1, _, _, h4⟩ := substr_zero_free v b hd hz l
        (by omega) ((r : Int) - (l : Int))
        (substr_arith_ok v.size l (by omega) _ (by split_ifs <;> omega))
      refine ⟨w, by simp [h, h1], ?_⟩
      have hn : (if 0 < (r : Int) - (l : Int) then ((r : Int) - (l : Int)).toNat
          else v.size - l) = r - l := by
        rw [if_pos (by omega)]; omega
      rw [hn] at h4
      simp only [filtered_string_view.content, h4, List.map_take, List.map_drop]

theorem split_loop_single_byte (lit : Nat) (v : filtered_string_view)
    (hz : v.zero_free) (hfit : (v.size : Int) ≤ INT_MAX) (x : char) (cs : List char) (l k : Nat)
    (hlk : l ≤ k) (hk : k ≤ v.accepted.length) (hcs : v.content.drop k = cs) :
    ∃ pieces, split_loop lit v
        ((l : Int) :: (single_byte_marks x cs k ++ [(v.accepted.length : Int)]))
          = .ret pieces
      ∧ pieces.map filtered_string_view.content
          = List.splitOnP.go (fun c => c == x) cs ((v.content.drop l).take (k - l)).reverse := by
  induction cs generalizing l k with
  | nil =>
    have hkm : v.accepted.length ≤ k := by
      have := congrArg List.length hcs
      rw [List.length_drop, content_length] at this
      simp at this
      omega
    obtain ⟨piece, hp, hpc⟩ := piece_content lit v hz hfit l v.accepted.length
      (by omega) le_rfl
    have hkeq : k = v.accepted.length := by omega
    refine ⟨[piece], ?_, ?_⟩
    · simp only [single_byte_marks, List.nil_append, split_loop, hp, Exec.bind_ret,
        Exec.map_ret]
    · simp [List.splitOnP.go, hpc, hkeq]
  | cons c cs ih =>
    have hkm : k < v.accepted.length := by
      by_contra hge
      rw [List.drop_of_length_le (by rw [content_length]; omega)] at hcs
      cases hcs
    have hnext : v.content.drop (k + 1) = cs := by
      have := congrArg List.tail hcs
      simpa using this
    have hck : v.content[k]? = some c := by
      have := congrArg List.head? hcs
      simpa [List.head?_drop] using this
    by_cases hc : c = x
    · obtain ⟨piece, hp, hpc⟩ := piece_content lit v hz hfit l k hlk (by omega)
      obtain ⟨pieces, hps, hpsc⟩ := ih (k + 1) (k + 1) le_rfl (by omega) hnext
      refine ⟨piece :: pieces, ?_, ?_⟩
      · simp only [single_byte_marks, hc, if_true, List.cons_append, split_loop, hp,
          Exec.bind_ret]
        rw [hps]
        rfl
      · simp [List.splitOnP.go, hc, hpc, hpsc]
    · obtain ⟨pieces, hps, hpsc⟩ := ih l (k + 1) (by omega) (by omega) hnext
      refine ⟨pieces, ?_, ?_⟩
      · simp only [single_byte_marks, hc, if_false]
        exact hps
      · rw [hpsc]
        have htake : (v.content.drop l).take (k + 1 - l)
            = (v.content.drop l).take (k - l) ++ [c] := by
          have hsucc : k + 1 - l = (k - l) + 1 := by omega
          rw [hsucc, List.take_succ, List.getElem?_drop,
            show l + (k - l) = k by omega, hck]
          rfl
        simp [List.splitOnP.go, hc, htake]

/-- On views over buffers without zero bytes, `split` on a token whose filtered content is
the single byte `x` returns the pieces between the occurrences of `x`: their contents are
those of `List.splitOn`. -/
theorem split_single_byte_zero_free (lit : Nat) (fsv tok : view_ptr)
    (hzv : fsv.pointee.zero_free) (hzt : tok.pointee.zero_free)
    (hfit : (fsv.pointee.size : Int) ≤ INT_MAX) (x : char)
    (ht : tok.pointee.content = [x]) :
    ∃ pieces, split lit fsv tok = .ret pieces
      ∧ pieces.map filtered_string_view.content = fsv.pointee.content.splitOn x := by
  have hlen : tok.pointee.accepted.length = 1 := by
    rw [← content_length, ht]; rfl
  have hx : (tok.pointee.accepted.getD 0 (0, 0)).2 = x := by
    have h := ht
    unfold filtered_string_view.content at h
    cases hacc : tok.pointee.accepted with
    | nil => rw [hacc] at h; cases h
    | cons p ps =>
      rw [hacc] at h
      simp only [List.map_cons, List.cons.injEq] at h
      simpa using h.1
  have hsize : ¬ tok.pointee.size = 0 := by rw [zero_free_size _ hzt]; omega
  have hloop := find_delimiter_positions_loop_single_byte fsv tok hzv hzt hlen
    fsv.pointee.accepted.length 0 fsv.pointee.fuel 0 [0] (by omega) (accepted_length_lt_fuel _)
  simp only [Nat.cast_zero, List.drop_zero, hx] at hloop
  have hfind : find_delimiter_positions fsv tok [0]
      = .ret ((0 : Int) :: (single_byte_marks x fsv.pointee.content 0
          ++ [(fsv.pointee.accepted.length : Int)])) := by
    unfold find_delimiter_positions
    rw [begin_zero_free tok hzt, begin_zero_free fsv hzv, end_zero_free fsv hzv]
    simp only [Exec.bind_ret]
    rw [hloop]
    rfl
  obtain ⟨pieces, hp, hpc⟩ := split_loop_single_byte lit fsv.pointee hzv hfit x
    fsv.pointee.content 0 0 le_rfl (by omega) rfl
  refine ⟨pieces, ?_, ?_⟩
  · unfold split
    rw [if_neg hsize, hfind]
    simpa using hp
  · rw [hpc]
    simp [List.splitOn, List.splitOnP]

end fsv
